import Mathlib

/-!
# Verification of the patchsim compartmental/network simulation engine

Shallow embedding of `src/patchsim/core/model.py` (classes `CompartmentalModel`
and `NetworkModel`) and of the `Simulation` orchestrator described in the spec.

Modelling conventions, fixed once here:

* Numeric values are exact rationals (`ℚ`).  The Python code computes with
  IEEE-754 doubles / numpy scalars; the claims under verification are about the
  arithmetic the code performs, so we model that arithmetic exactly and do not
  model rounding, overflow, or the inf/nan values of IEEE arithmetic.
* Python dicts are modelled as association lists (`List (String × ℚ)`) looked
  up at the first matching key, or, for the cross-patch full state, as the
  function type `FullState`.  Python dicts hold each key once; the association
  lists built by this code have duplicate keys only when a model declares the
  same compartment name twice, and theorems assume `Nodup` where that matters.
* The qualified state keys `f"{c}_{i}"` of the Python code are modelled as the
  pair `(c, i) : String × ℕ`.  Since `str(i)` never contains an underscore,
  the map `(c, i) ↦ f"{c}_{i}"` is injective and `f"I_{j}"` is the image of
  `("I", j)`, so the pair representation is faithful to the string keys.
* Python exceptions are modelled with `Except ModelError`: `NameError` raised
  by `eval` on an unbound name becomes `undefinedVariable`, a failed dict
  lookup becomes `keyError` / `stateKeyError`.  Division of numpy scalars by
  zero does NOT raise in Python (it emits a `RuntimeWarning` and produces
  inf/nan), so the force-of-infection computation is modelled as total in the
  denominator: no error is produced there, and the rational value attached to
  a zero denominator (Lean's `q / 0 = 0`) is junk that no theorem relies on.
-/

/-- Errors the engine can raise: `NameError` from `eval` on an unbound name
(the spec's `UndefinedVariable`), a `KeyError` on a per-patch dict keyed by
compartment name, and a `KeyError` on the full state keyed by
(compartment, patch index). -/
inductive ModelError where
  | undefinedVariable (name : String)
  | keyError (name : String)
  | stateKeyError (comp : String) (patch : ℕ)
deriving DecidableEq, Repr

/-- Environments mapping names to values (the `local_env` dict of
`compute_transition_rates`). -/
abbrev Env := String → Option ℚ

/-- Rate expressions: the restricted arithmetic expression language of the
spec (§6): constants, named references, and the standard arithmetic
operators, as parsed by Python's left-to-right evaluation of `eval`. -/
inductive Expr where
  | const : ℚ → Expr
  | var : String → Expr
  | neg : Expr → Expr
  | add : Expr → Expr → Expr
  | sub : Expr → Expr → Expr
  | mul : Expr → Expr → Expr
  | div : Expr → Expr → Expr
deriving DecidableEq, Repr

/-- Evaluate a rate expression in an environment, operands left to right, the
first unbound name raising `undefinedVariable` (Python: `NameError`).
Division is the exact-rational division (see the header comment).  Python's
`eval` with empty globals still injects the builtins; names shadowing a
Python builtin are outside the restricted language modelled here. -/
def Expr.evalIn (env : Env) : Expr → Except ModelError ℚ
  | .const q => .ok q
  | .var n =>
    match env n with
    | some v => .ok v
    | none => .error (.undefinedVariable n)
  | .neg a =>
    match a.evalIn env with
    | .error e => .error e
    | .ok x => .ok (-x)
  | .add a b =>
    match a.evalIn env, b.evalIn env with
    | .error e, _ => .error e
    | .ok _, .error e => .error e
    | .ok x, .ok y => .ok (x + y)
  | .sub a b =>
    match a.evalIn env, b.evalIn env with
    | .error e, _ => .error e
    | .ok _, .error e => .error e
    | .ok x, .ok y => .ok (x - y)
  | .mul a b =>
    match a.evalIn env, b.evalIn env with
    | .error e, _ => .error e
    | .ok _, .error e => .error e
    | .ok x, .ok y => .ok (x * y)
  | .div a b =>
    match a.evalIn env, b.evalIn env with
    | .error e, _ => .error e
    | .ok _, .error e => .error e
    | .ok x, .ok y => .ok (x / y)

/-- The names a rate expression references. -/
def Expr.vars : Expr → List String
  | .const _ => []
  | .var n => [n]
  | .neg a => a.vars
  | .add a b => a.vars ++ b.vars
  | .sub a b => a.vars ++ b.vars
  | .mul a b => a.vars ++ b.vars
  | .div a b => a.vars ++ b.vars

/-- First-occurrence lookup in an association list (a Python dict read
`d[n]`, returning `none` where Python raises `KeyError`). -/
def lookupQ (n : String) : List (String × ℚ) → Option ℚ
  | [] => none
  | (k, v) :: rest => if k = n then some v else lookupQ n rest

/-- Update the first entry with key `n` (a Python dict write `d[n] = f d[n]`;
`none` models the `KeyError` on a missing key). -/
def updA (n : String) (f : ℚ → ℚ) : List (String × ℚ) → Option (List (String × ℚ))
  | [] => none
  | (k, v) :: rest =>
    if k = n then some ((k, f v) :: rest)
    else (updA n f rest).map (fun l => (k, v) :: l)

/-- Sequence a fallible computation over a list, stopping at the first error
(a Python `for` loop building a list, with exception propagation). -/
def seqMap (f : α → Except ModelError β) : List α → Except ModelError (List β)
  | [] => .ok []
  | a :: l =>
    match f a with
    | .error e => .error e
    | .ok b =>
      match seqMap f l with
      | .error e => .error e
      | .ok bs => .ok (b :: bs)

/-- Fold a fallible update over a list, stopping at the first error
(a Python `for` loop mutating an accumulator, with exception propagation). -/
def foldE (f : β → α → Except ModelError β) : β → List α → Except ModelError β
  | b, [] => .ok b
  | b, a :: l =>
    match f b a with
    | .error e => .error e
    | .ok b' => foldE f b' l

/-- A transition rule `{'from': ..., 'to': ..., 'rate': ...}` of the Python
code; `src`/`dst` model the `'from'`/`'to'` fields (`none` = Python `None`,
the case the code's `if src:` / `if dst:` truthiness guards skip; an
empty-string name, also falsy in Python, is not a compartment name and is
not modelled). -/
structure Transition where
  src : Option String
  dst : Option String
  rate : Expr
deriving DecidableEq, Repr

/-- `CompartmentalModel.__init__`: ordered compartment names, parameter
dict, ordered transition list. -/
structure CompartmentalModel where
  compartments : List String
  parameters : List (String × ℚ)
  transitions : List Transition
deriving DecidableEq, Repr

/-- The combined environment `local_env = {**state, **self.parameters}`
followed by `local_env.update(extras)`: extras take precedence over
parameters, which take precedence over the compartment state. -/
def buildEnv (m : CompartmentalModel) (state extras : List (String × ℚ)) : Env :=
  fun n =>
    match lookupQ n extras with
    | some v => some v
    | none =>
      match lookupQ n m.parameters with
      | some v => some v
      | none => lookupQ n state

/-- One iteration of the transition loop of `compute_transition_rates`:
evaluate the rate, then `deltas[src] -= rate` (if `src` present), then
`deltas[dst] += rate` (if `dst` present); a missing key is a `KeyError`. -/
def applyTransition (env : Env) (deltas : List (String × ℚ)) (tr : Transition) :
    Except ModelError (List (String × ℚ)) :=
  match tr.rate.evalIn env with
  | .error e => .error e
  | .ok rate =>
    match
      ((match tr.src with
        | none => .ok deltas
        | some c =>
          match updA c (fun v => v - rate) deltas with
          | some d => .ok d
          | none => .error (.keyError c)) :
        Except ModelError (List (String × ℚ))) with
    | .error e => .error e
    | .ok d1 =>
      match tr.dst with
      | none => .ok d1
      | some c =>
        match updA c (fun v => v + rate) d1 with
        | some d => .ok d
        | none => .error (.keyError c)

/-- `CompartmentalModel.compute_transition_rates(state, extras)`: build the
combined environment, initialize `deltas = {c: 0.0 for c in compartments}`,
and fold the transition loop over the declared transitions. -/
def CompartmentalModel.compute_transition_rates (m : CompartmentalModel)
    (state extras : List (String × ℚ)) : Except ModelError (List (String × ℚ)) :=
  foldE (applyTransition (buildEnv m state extras))
    (m.compartments.map (fun c => (c, (0 : ℚ)))) m.transitions

/-- `CompartmentalModel.ode_rhs(y, t, extras_fn)`: rebuild the named state
from the flat vector (`{c: y[i] for i, c in enumerate(compartments)}`),
compute the deltas, and flatten them back in compartment order (the `t` and
`extras_fn` plumbing is collapsed into the `extras` argument it produces;
a vector shorter than the compartment list raises `IndexError` in Python,
while the embedding's `zip` truncates — no theorem evaluates a short
vector). -/
def CompartmentalModel.ode_rhs (m : CompartmentalModel) (y : List ℚ)
    (extras : List (String × ℚ)) : Except ModelError (List ℚ) :=
  match m.compute_transition_rates (m.compartments.zip y) extras with
  | .error e => .error e
  | .ok deltas =>
    seqMap (fun c =>
      match lookupQ c deltas with
      | some d => .ok d
      | none => .error (.keyError c)) m.compartments

/-- The cross-patch full state: a mapping from qualified keys
`(compartment, patch index)` — the Python string keys `f"{c}_{i}"` — to
values; `none` models an absent key. -/
abbrev FullState := String × ℕ → Option ℚ

/-- Write one full-state key (`state[key] = v`). -/
def updFS (k : String × ℕ) (v : ℚ) (s : FullState) : FullState :=
  fun k' => if k' = k then some v else s k'

/-- The post-step clamp `{k: max(v, 0) for k, v in new_state.items()}`. -/
def clampState (s : FullState) : FullState :=
  fun k => (s k).map (fun v => max v 0)

/-- First-occurrence lookup in an association list over qualified keys. -/
def lookupP (k : String × ℕ) : List ((String × ℕ) × ℚ) → Option ℚ
  | [] => none
  | (k', v) :: rest => if k' = k then some v else lookupP k rest

/-- `NetworkModel.__init__`: a base model replicated over `num_patches`
patches, coupled by the `N × N` weight matrix `network` (the numpy array,
modelled as its indexing function). -/
structure NetworkModel where
  base_model : CompartmentalModel
  num_patches : ℕ
  network : ℕ → ℕ → ℚ

/-- `self.all_compartments`: the qualified keys
`[f"{c}_{i}" for i in range(num_patches) for c in base_model.compartments]`,
patch-major. -/
def NetworkModel.allCompartments (nm : NetworkModel) : List (String × ℕ) :=
  (List.range nm.num_patches).flatMap
    (fun i => nm.base_model.compartments.map (fun c => (c, i)))

/-- `NetworkModel.compute_force_of_infection(full_state)`: for each patch
`i`, accumulate `network[i][j] * I_j / N_j` over `j`, where
`I_j = full_state[f"I_{j}"]` and `N_j` is the sum of patch `j`'s compartment
values.  A missing key raises (Python `KeyError`); a zero `N_j` does NOT
raise — numpy scalar division by zero only warns — so the division here is
the total rational division (the value it attaches to a zero denominator is
junk no theorem relies on). -/
def NetworkModel.compute_force_of_infection (nm : NetworkModel) (fs : FullState) :
    Except ModelError (List ℚ) :=
  seqMap (fun i =>
      foldE (fun force j =>
          match fs ("I", j) with
          | none => .error (.stateKeyError "I" j)
          | some Ij =>
            match foldE (fun acc c =>
                match fs (c, j) with
                | none => .error (.stateKeyError c j)
                | some v => .ok (acc + v)) 0 nm.base_model.compartments with
            | .error e => .error e
            | .ok Nj => .ok (force + nm.network i j * Ij / Nj))
        0 (List.range nm.num_patches))
    (List.range nm.num_patches)

/-- The per-patch slice `patch_state = {c: state[f"{c}_{i}"] for c in
compartments}` (a missing key raises `KeyError`). -/
def patchExtract (m : CompartmentalModel) (fs : FullState) (i : ℕ) :
    Except ModelError (List (String × ℚ)) :=
  seqMap (fun c =>
    match fs (c, i) with
    | some v => .ok (c, v)
    | none => .error (.stateKeyError c i)) m.compartments

/-- The body of `simulate_discrete`'s per-patch loop: slice the patch state
out of the (pre-step) state `fs`, compute deltas with
`extras = {"lambda_i": lambdas[i]}`, and add each delta into the new state
at the patch's qualified keys. -/
def NetworkModel.patchUpdate (nm : NetworkModel) (fs : FullState) (lambdas : List ℚ)
    (ns : FullState) (i : ℕ) : Except ModelError FullState :=
  match patchExtract nm.base_model fs i with
  | .error e => .error e
  | .ok ps =>
    match nm.base_model.compute_transition_rates ps [("lambda_i", lambdas.getD i 0)] with
    | .error e => .error e
    | .ok deltas =>
      foldE (fun s cd =>
          match s (cd.1, i) with
          | none => .error (.stateKeyError cd.1 i)
          | some v => .ok (updFS (cd.1, i) (v + cd.2) s)) ns deltas

/-- One step of `simulate_discrete` after the force-of-infection vector is
known: run the per-patch loop over all patches starting from a copy of the
current state, then clamp every value at zero. -/
def NetworkModel.discreteStepCore (nm : NetworkModel) (fs : FullState)
    (lambdas : List ℚ) : Except ModelError FullState :=
  match foldE (nm.patchUpdate fs lambdas) fs (List.range nm.num_patches) with
  | .error e => .error e
  | .ok ns => .ok (clampState ns)

/-- One full step of `simulate_discrete`: compute the force-of-infection
vector from the pre-step state, then apply the per-patch updates and the
clamp. -/
def NetworkModel.discreteStep (nm : NetworkModel) (fs : FullState) :
    Except ModelError FullState :=
  match nm.compute_force_of_infection fs with
  | .error e => .error e
  | .ok lambdas => nm.discreteStepCore fs lambdas

/-- The stepping loop of `simulate_discrete`: one state per time point after
the first (the loop `for t in t_range[1:]`), each appended to the history. -/
def simDiscreteAux (nm : NetworkModel) : ℕ → FullState → Except ModelError (List FullState)
  | 0, _ => .ok []
  | steps + 1, st =>
    match nm.discreteStep st with
    | .error e => .error e
    | .ok st' =>
      match simDiscreteAux nm steps st' with
      | .error e => .error e
      | .ok rest => .ok (st' :: rest)

/-- `NetworkModel.simulate_discrete(y0_dict, t_range)`: initialize the
history from the initial state (reading every qualified key — a missing one
raises `KeyError`), then step once per remaining time point.  The history is
modelled as the list of full states (the Python per-key history dict is its
transpose); `steps` is `len(t_range) - 1`. -/
def NetworkModel.simulate_discrete (nm : NetworkModel) (y0 : FullState) (steps : ℕ) :
    Except ModelError (List FullState) :=
  match seqMap (fun k =>
      match y0 k with
      | some v => .ok v
      | none => .error (.stateKeyError k.1 k.2)) nm.allCompartments with
  | .error e => .error e
  | .ok _ =>
    match simDiscreteAux nm steps y0 with
    | .error e => .error e
    | .ok sts => .ok (y0 :: sts)

/-- The named state `{c: y[i] for i, c in enumerate(all_compartments)}`
rebuilt by `simulate_ode`'s right-hand side from the solver's flat vector
(solver-supplied vectors have length `len(all_compartments)` by the solver
contract; theorems needing it assume that length). -/
def NetworkModel.stateOfVec (nm : NetworkModel) (y : List ℚ) : FullState :=
  fun k => lookupP k (nm.allCompartments.zip y)

/-- The per-patch body of `simulate_ode`'s right-hand side once the
force-of-infection vector is known: per patch, slice the state, compute
deltas with `extras = {"lambda_i": lambdas[i]}`, and append the deltas in
compartment order; the flat derivative vector is the patch-major
concatenation. -/
def NetworkModel.odeRhsCore (nm : NetworkModel) (st : FullState) (lambdas : List ℚ) :
    Except ModelError (List ℚ) :=
  match seqMap (fun i =>
      match patchExtract nm.base_model st i with
      | .error e => .error e
      | .ok ps =>
        match nm.base_model.compute_transition_rates ps
            [("lambda_i", lambdas.getD i 0)] with
        | .error e => .error e
        | .ok deltas =>
          seqMap (fun c =>
            match lookupQ c deltas with
            | some d => .ok d
            | none => .error (.keyError c)) nm.base_model.compartments)
    (List.range nm.num_patches) with
  | .error e => .error e
  | .ok segs => .ok segs.flatten

/-- The right-hand-side function `rhs(y, t)` that `simulate_ode` builds and
hands to the solver: rebuild the named state, recompute the
force-of-infection vector, and flatten the per-patch deltas. -/
def NetworkModel.odeRhs (nm : NetworkModel) (y : List ℚ) : Except ModelError (List ℚ) :=
  match nm.compute_force_of_infection (nm.stateOfVec y) with
  | .error e => .error e
  | .ok lambdas => nm.odeRhsCore (nm.stateOfVec y) lambdas

/-- `NetworkModel.simulate_ode(y0_dict, t_range, odesolver)`: flatten the
initial state in `all_compartments` order (a missing key raises `KeyError`)
and invoke the externally supplied solver on the right-hand side; the
solver is abstract, so the returned matrix is whatever it produces. -/
def NetworkModel.simulate_ode (nm : NetworkModel) (y0d : FullState)
    (solver : (List ℚ → Except ModelError (List ℚ)) → List ℚ → List (List ℚ)) :
    Except ModelError (List (List ℚ)) :=
  match seqMap (fun k =>
      match y0d k with
      | some v => .ok v
      | none => .error (.stateKeyError k.1 k.2)) nm.allCompartments with
  | .error e => .error e
  | .ok y0 => .ok (solver nm.odeRhs y0)

/-- Patch `j`'s total population `N_j`: the sum of all of patch `j`'s
compartment values (absent keys contribute the `getD` default; the theorems
using this assume the keys are present). -/
def patchTotal (nm : NetworkModel) (fs : FullState) (j : ℕ) : ℚ :=
  (nm.base_model.compartments.map (fun c => (fs (c, j)).getD 0)).sum

/-- The spec's force-of-infection formula, stated from the spec's words for
claim C1: `force_i = Σ_j network[i][j] * I_j / N_j`. -/
def specForce (nm : NetworkModel) (fs : FullState) (i : ℕ) : ℚ :=
  ((List.range nm.num_patches).map
    (fun j => nm.network i j * ((fs ("I", j)).getD 0) / patchTotal nm fs j)).sum

/-- Patch `i`'s slice of a full state, as the single-patch association list
(compartment name, value) in declaration order. -/
def projL (m : CompartmentalModel) (fs : FullState) (i : ℕ) : List (String × ℚ) :=
  m.compartments.map (fun c => (c, (fs (c, i)).getD 0))

/-- Patch `i`'s block of a patch-major flat vector. -/
def patchSlice (m : CompartmentalModel) (x : List ℚ) (i : ℕ) : List ℚ :=
  (x.drop (i * m.compartments.length)).take m.compartments.length

/-- Modelled from the spec (§8, zero-coupling degeneracy), for claim C7: one
discrete step of an independent single-patch run of the base model "under
the same stepping with the extra variable lambda_i fixed at 0" — deltas from
`compute_transition_rates` with `extras = {"lambda_i": 0}`, added into the
patch state, then floored at zero like `simulate_discrete`'s post-step
clamp. -/
def CompartmentalModel.singleStep (m : CompartmentalModel) (ps : List (String × ℚ)) :
    Except ModelError (List (String × ℚ)) :=
  match m.compute_transition_rates ps [("lambda_i", 0)] with
  | .error e => .error e
  | .ok deltas =>
    match foldE (fun s cd =>
        match updA cd.1 (fun v => v + cd.2) s with
        | some s' => .ok s'
        | none => .error (.keyError cd.1)) ps deltas with
    | .error e => .error e
    | .ok ns => .ok (ns.map (fun cv => (cv.1, max cv.2 0)))

/-- The stepping loop of the single-patch run (states after each step). -/
def singleAux (m : CompartmentalModel) : ℕ → List (String × ℚ) →
    Except ModelError (List (List (String × ℚ)))
  | 0, _ => .ok []
  | steps + 1, ps =>
    match m.singleStep ps with
    | .error e => .error e
    | .ok ps' =>
      match singleAux m steps ps' with
      | .error e => .error e
      | .ok rest => .ok (ps' :: rest)

/-- Modelled from the spec, for claim C7: an independent single-patch
discrete run of the base model with `lambda_i` fixed at 0, returning the
trajectory including the initial state. -/
def CompartmentalModel.singleRun (m : CompartmentalModel) (ps : List (String × ℚ))
    (steps : ℕ) : Except ModelError (List (List (String × ℚ))) :=
  match singleAux m steps ps with
  | .error e => .error e
  | .ok rest => .ok (ps :: rest)

/-- The failure taxonomy of the spec's `Simulation` orchestrator (§4.3/§7):
`NotImplementedError` for discrete mode without a network, `MissingSolver`
for ode mode without a solver, `UnknownMode` for any other mode value. -/
inductive SimError where
  | notImplemented
  | missingSolver
  | unknownMode (mode : String)
deriving DecidableEq, Repr

/-- The engine entry point a `Simulation` run delegates to. -/
inductive SimAction where
  | discreteRun (nm : NetworkModel)
  | odeRun

/-- Modelled from the spec: the `Simulation` orchestrator of §4.3 is not
present under `src/` (the `run_simulation` function in
`core/simulation.py` is a config-file driven script with no mode field and
none of these error classes), so this models the spec's words: an
execution mode fixed at construction, an optional network, and a flag for
whether an external solver was supplied. -/
structure Simulation where
  mode : String
  network : Option NetworkModel
  hasSolver : Bool

/-- Modelled from the spec (§4.3): dispatch on the mode fixed at
construction — `"discrete"` requires a network and delegates to the
discrete engine (else `NotImplementedError`); `"ode"` requires an external
solver (else `MissingSolver`); any other mode fails with `UnknownMode`.
Each failure is returned immediately; there is no retry. -/
def Simulation.dispatch (s : Simulation) : Except SimError SimAction :=
  if s.mode = "discrete" then
    match s.network with
    | some nm => .ok (.discreteRun nm)
    | none => .error .notImplemented
  else if s.mode = "ode" then
    if s.hasSolver then .ok .odeRun else .error .missingSolver
  else .error (.unknownMode s.mode)

/-- The SIR base model of the spec's example scenario (§8) and of
`models/sample-sir-ode.py`: compartments `[S, I, R]`, parameters
`beta = 0.3`, `gamma = 0.1`, transitions `S→I` at rate `beta * S * lambda_i`
and `I→R` at rate `gamma * I`. -/
def sirBase : CompartmentalModel :=
  { compartments := ["S", "I", "R"]
    parameters := [("beta", 3 / 10), ("gamma", 1 / 10)]
    transitions :=
      [ ⟨some "S", some "I", .mul (.mul (.var "beta") (.var "S")) (.var "lambda_i")⟩,
        ⟨some "I", some "R", .mul (.var "gamma") (.var "I")⟩ ] }

/-- Two patches with the identity coupling matrix `[[1, 0], [0, 1]]`. -/
def sirNet : NetworkModel :=
  { base_model := sirBase
    num_patches := 2
    network := fun i j => if i = j then 1 else 0 }

/-- Initial full state `S=99, I=1, R=0` in each of the two patches. -/
def sirY0 : FullState := fun k =>
  if k.2 ≤ 1 then
    if k.1 = "S" then some 99 else if k.1 = "I" then some 1
    else if k.1 = "R" then some 0 else none
  else none

/-- A one-patch SIR network with self-coupling weight 1 (for claim C6). -/
def zeroPopNet : NetworkModel :=
  { base_model := sirBase, num_patches := 1, network := fun _ _ => 1 }

/-- A full state whose single patch holds every compartment at zero, so its
total population is zero (for claim C6). -/
def zeroPopState : FullState := fun k =>
  if k.2 = 0 ∧ (k.1 = "S" ∨ k.1 = "I" ∨ k.1 = "R") then some 0 else none

/-- The SIR base model on two patches with the all-zero coupling matrix
(for claim C7). -/
def zeroCoupNet : NetworkModel :=
  { base_model := sirBase, num_patches := 2, network := fun _ _ => 0 }

/-- The value of a transition's rate expression in an environment (defined
where evaluation succeeds; `0` is a don't-care default otherwise). -/
def rateOf (env : Env) (tr : Transition) : ℚ :=
  (tr.rate.evalIn env).toOption.getD 0

/-- The signed contribution of one transition to compartment `c`, stated
from the claim's words: `+rate` when `c` is the transition's `to`, `-rate`
when `c` is its `from`. -/
def signedDelta (env : Env) (c : String) (tr : Transition) : ℚ :=
  (if tr.src = some c then -(rateOf env tr) else 0) +
    (if tr.dst = some c then rateOf env tr else 0)

/-- The total signed contribution of a transition list to compartment `c`. -/
def signedSum (env : Env) (c : String) (ts : List Transition) : ℚ :=
  (ts.map (signedDelta env c)).sum

theorem lookupQ_cons_self (n : String) (v : ℚ) (l : List (String × ℚ)) :
    lookupQ n ((n, v) :: l) = some v := by
  simp [lookupQ]

theorem lookupQ_cons_ne (k n : String) (v : ℚ) (l : List (String × ℚ)) (h : k ≠ n) :
    lookupQ n ((k, v) :: l) = lookupQ n l := by
  simp [lookupQ, h]

theorem updA_cons_self (n : String) (f : ℚ → ℚ) (v : ℚ) (l : List (String × ℚ)) :
    updA n f ((n, v) :: l) = some ((n, f v) :: l) := by
  simp [updA]

theorem updA_cons_ne (k n : String) (f : ℚ → ℚ) (v : ℚ) (l : List (String × ℚ))
    (h : k ≠ n) :
    updA n f ((k, v) :: l) = (updA n f l).map (fun t => (k, v) :: t) := by
  simp [updA, h]

theorem lookupQ_map_const (n : String) (x : ℚ) (L : List String) :
    lookupQ n (L.map (fun c => (c, x))) = if n ∈ L then some x else none := by
  induction L with
  | nil => simp [lookupQ]
  | cons c L ih =>
    by_cases hc : c = n
    · subst hc
      simp [lookupQ_cons_self]
    · have hnc : ¬n = c := fun h => hc h.symm
      rw [List.map_cons, lookupQ_cons_ne c n x _ hc, ih]
      simp [List.mem_cons, hnc]

theorem lookupQ_isSome_iff (n : String) (l : List (String × ℚ)) :
    (lookupQ n l).isSome ↔ n ∈ l.map Prod.fst := by
  induction l with
  | nil => simp [lookupQ]
  | cons kv l ih =>
    obtain ⟨k, v⟩ := kv
    by_cases hk : k = n
    · subst hk
      simp [lookupQ_cons_self]
    · have hnk : ¬n = k := fun h => hk h.symm
      rw [lookupQ_cons_ne k n v l hk]
      simp [List.mem_cons, hnk, ih]

theorem updA_isSome_iff (n : String) (f : ℚ → ℚ) (l : List (String × ℚ)) :
    (updA n f l).isSome ↔ n ∈ l.map Prod.fst := by
  induction l with
  | nil => simp [updA]
  | cons kv l ih =>
    obtain ⟨k, v⟩ := kv
    by_cases hk : k = n
    · subst hk
      simp [updA_cons_self]
    · have hnk : ¬n = k := fun h => hk h.symm
      rw [updA_cons_ne k n f v l hk]
      simp [List.mem_cons, hnk, ih]

theorem updA_keys (n : String) (f : ℚ → ℚ) (l l' : List (String × ℚ))
    (h : updA n f l = some l') : l'.map Prod.fst = l.map Prod.fst := by
  induction l generalizing l' with
  | nil => simp [updA] at h
  | cons kv l ih =>
    obtain ⟨k, v⟩ := kv
    by_cases hk : k = n
    · subst hk
      rw [updA_cons_self] at h
      simp only [Option.some_inj] at h
      subst h
      simp
    · rw [updA_cons_ne k n f v l hk] at h
      rcases hu : updA n f l with _ | t
      · rw [hu] at h; simp at h
      · rw [hu] at h
        simp only [Option.map_some', Option.some_inj] at h
        subst h
        simp [ih t hu]

theorem updA_lookup_self (n : String) (f : ℚ → ℚ) (l l' : List (String × ℚ))
    (h : updA n f l = some l') : lookupQ n l' = (lookupQ n l).map f := by
  induction l generalizing l' with
  | nil => simp [updA] at h
  | cons kv l ih =>
    obtain ⟨k, v⟩ := kv
    by_cases hk : k = n
    · subst hk
      rw [updA_cons_self] at h
      simp only [Option.some_inj] at h
      subst h
      simp [lookupQ_cons_self]
    · rw [updA_cons_ne k n f v l hk] at h
      rcases hu : updA n f l with _ | t
      · rw [hu] at h; simp at h
      · rw [hu] at h
        simp only [Option.map_some', Option.some_inj] at h
        subst h
        rw [lookupQ_cons_ne k n v l hk, lookupQ_cons_ne k n v t hk]
        exact ih t hu

theorem updA_lookup_other (n : String) (f : ℚ → ℚ) (l l' : List (String × ℚ))
    (h : updA n f l = some l') (c : String) (hc : c ≠ n) :
    lookupQ c l' = lookupQ c l := by
  induction l generalizing l' with
  | nil => simp [updA] at h
  | cons kv l ih =>
    obtain ⟨k, v⟩ := kv
    by_cases hk : k = n
    · subst hk
      rw [updA_cons_self] at h
      simp only [Option.some_inj] at h
      subst h
      by_cases hkc : k = c
      · subst hkc; exact absurd rfl hc
      · rw [lookupQ_cons_ne k c (f v) l hkc, lookupQ_cons_ne k c v l hkc]
    · rw [updA_cons_ne k n f v l hk] at h
      rcases hu : updA n f l with _ | t
      · rw [hu] at h; simp at h
      · rw [hu] at h
        simp only [Option.map_some', Option.some_inj] at h
        subst h
        by_cases hkc : k = c
        · subst hkc
          rw [lookupQ_cons_self, lookupQ_cons_self]
        · rw [lookupQ_cons_ne k c v l hkc, lookupQ_cons_ne k c v t hkc]
          exact ih t hu

theorem updA_lookup_eval (n : String) (f : ℚ → ℚ) (l l' : List (String × ℚ))
    (h : updA n f l = some l') (c : String) (v0 : ℚ) (hc : lookupQ c l = some v0) :
    lookupQ c l' = some (if n = c then f v0 else v0) := by
  by_cases hnc : n = c
  · subst hnc
    rw [updA_lookup_self n f l l' h, hc]
    simp
  · rw [updA_lookup_other n f l l' h c (fun hh => hnc hh.symm), hc, if_neg hnc]

theorem evalIn_ok_bound (env : Env) (e : Expr) (q : ℚ) (h : e.evalIn env = .ok q) :
    ∀ n ∈ e.vars, (env n).isSome := by
  induction e generalizing q with
  | const c => simp [Expr.vars]
  | var m =>
    intro n hn
    simp only [Expr.vars, List.mem_singleton] at hn
    subst hn
    rcases henv : env n with _ | v
    · simp [Expr.evalIn, henv] at h
    · simp
  | neg a iha =>
    intro n hn
    simp only [Expr.vars] at hn
    simp only [Expr.evalIn] at h
    rcases ha : a.evalIn env with ea | qa <;> rw [ha] at h <;> simp at h
    exact iha qa ha n hn
  | add a b iha ihb =>
    intro n hn
    simp only [Expr.vars, List.mem_append] at hn
    simp only [Expr.evalIn] at h
    rcases ha : a.evalIn env with ea | qa <;> rcases hb : b.evalIn env with eb | qb <;>
      rw [ha, hb] at h <;> simp at h
    rcases hn with hn | hn
    · exact iha qa ha n hn
    · exact ihb qb hb n hn
  | sub a b iha ihb =>
    intro n hn
    simp only [Expr.vars, List.mem_append] at hn
    simp only [Expr.evalIn] at h
    rcases ha : a.evalIn env with ea | qa <;> rcases hb : b.evalIn env with eb | qb <;>
      rw [ha, hb] at h <;> simp at h
    rcases hn with hn | hn
    · exact iha qa ha n hn
    · exact ihb qb hb n hn
  | mul a b iha ihb =>
    intro n hn
    simp only [Expr.vars, List.mem_append] at hn
    simp only [Expr.evalIn] at h
    rcases ha : a.evalIn env with ea | qa <;> rcases hb : b.evalIn env with eb | qb <;>
      rw [ha, hb] at h <;> simp at h
    rcases hn with hn | hn
    · exact iha qa ha n hn
    · exact ihb qb hb n hn
  | div a b iha ihb =>
    intro n hn
    simp only [Expr.vars, List.mem_append] at hn
    simp only [Expr.evalIn] at h
    rcases ha : a.evalIn env with ea | qa <;> rcases hb : b.evalIn env with eb | qb <;>
      rw [ha, hb] at h <;> simp at h
    rcases hn with hn | hn
    · exact iha qa ha n hn
    · exact ihb qb hb n hn

theorem evalIn_cases (env : Env) (e : Expr) :
    (∃ q, e.evalIn env = .ok q) ∨
    (∃ n, n ∈ e.vars ∧ env n = none ∧ e.evalIn env = .error (.undefinedVariable n)) := by
  induction e with
  | const q => exact .inl ⟨q, rfl⟩
  | var m =>
    rcases henv : env m with _ | v
    · exact .inr ⟨m, by simp [Expr.vars], henv, by simp [Expr.evalIn, henv]⟩
    · exact .inl ⟨v, by simp [Expr.evalIn, henv]⟩
  | neg a iha =>
    rcases iha with ⟨qa, ha⟩ | ⟨n, hn, henv, ha⟩
    · exact .inl ⟨-qa, by simp [Expr.evalIn, ha]⟩
    · exact .inr ⟨n, by simpa [Expr.vars] using hn, henv, by simp [Expr.evalIn, ha]⟩
  | add a b iha ihb =>
    rcases iha with ⟨qa, ha⟩ | ⟨n, hn, henv, ha⟩
    · rcases ihb with ⟨qb, hb⟩ | ⟨n, hn, henv, hb⟩
      · exact .inl ⟨qa + qb, by simp [Expr.evalIn, ha, hb]⟩
      · exact .inr ⟨n, by simp [Expr.vars, hn], henv, by simp [Expr.evalIn, ha, hb]⟩
    · exact .inr ⟨n, by simp [Expr.vars, hn], henv, by simp [Expr.evalIn, ha]⟩
  | sub a b iha ihb =>
    rcases iha with ⟨qa, ha⟩ | ⟨n, hn, henv, ha⟩
    · rcases ihb with ⟨qb, hb⟩ | ⟨n, hn, henv, hb⟩
      · exact .inl ⟨qa - qb, by simp [Expr.evalIn, ha, hb]⟩
      · exact .inr ⟨n, by simp [Expr.vars, hn], henv, by simp [Expr.evalIn, ha, hb]⟩
    · exact .inr ⟨n, by simp [Expr.vars, hn], henv, by simp [Expr.evalIn, ha]⟩
  | mul a b iha ihb =>
    rcases iha with ⟨qa, ha⟩ | ⟨n, hn, henv, ha⟩
    · rcases ihb with ⟨qb, hb⟩ | ⟨n, hn, henv, hb⟩
      · exact .inl ⟨qa * qb, by simp [Expr.evalIn, ha, hb]⟩
      · exact .inr ⟨n, by simp [Expr.vars, hn], henv, by simp [Expr.evalIn, ha, hb]⟩
    · exact .inr ⟨n, by simp [Expr.vars, hn], henv, by simp [Expr.evalIn, ha]⟩
  | div a b iha ihb =>
    rcases iha with ⟨qa, ha⟩ | ⟨n, hn, henv, ha⟩
    · rcases ihb with ⟨qb, hb⟩ | ⟨n, hn, henv, hb⟩
      · exact .inl ⟨qa / qb, by simp [Expr.evalIn, ha, hb]⟩
      · exact .inr ⟨n, by simp [Expr.vars, hn], henv, by simp [Expr.evalIn, ha, hb]⟩
    · exact .inr ⟨n, by simp [Expr.vars, hn], henv, by simp [Expr.evalIn, ha]⟩

theorem evalIn_error_of_unbound (env : Env) (e : Expr) (n : String)
    (hn : n ∈ e.vars) (henv : env n = none) :
    ∃ n', e.evalIn env = .error (.undefinedVariable n') := by
  rcases evalIn_cases env e with ⟨q, hq⟩ | ⟨n', _, _, he⟩
  · have := evalIn_ok_bound env e q hq n hn
    rw [henv] at this
    simp at this
  · exact ⟨n', he⟩

set_option linter.unnecessarySeqFocus false in
theorem applyTransition_ok (env : Env) (d : List (String × ℚ)) (tr : Transition)
    (r : ℚ) (hr : tr.rate.evalIn env = .ok r)
    (hsrc : ∀ c, tr.src = some c → c ∈ d.map Prod.fst)
    (hdst : ∀ c, tr.dst = some c → c ∈ d.map Prod.fst) :
    ∃ d', applyTransition env d tr = .ok d' ∧
      d'.map Prod.fst = d.map Prod.fst ∧
      ∀ c v0, lookupQ c d = some v0 →
        lookupQ c d' = some (v0 + signedDelta env c tr) := by
  have hrate : rateOf env tr = r := by simp [rateOf, hr, Except.toOption]
  obtain ⟨src, dst, rate⟩ := tr
  simp only at hr hsrc hdst
  cases src with
  | none =>
    cases dst with
    | none =>
      refine ⟨d, by simp [applyTransition, hr], rfl, ?_⟩
      intro c v0 h0
      simp [signedDelta, h0]
    | some b =>
      have hb := hdst b rfl
      rcases hub : updA b (fun v => v + r) d with _ | db
      · have := (updA_isSome_iff b (fun v => v + r) d).mpr hb
        rw [hub] at this; simp at this
      · refine ⟨db, by simp [applyTransition, hr, hub], updA_keys _ _ _ _ hub, ?_⟩
        intro c v0 h0
        rw [updA_lookup_eval b (fun v => v + r) d db hub c v0 h0]
        simp only [signedDelta, hrate]
        by_cases hbc : b = c <;> simp [hbc]
  | some a =>
    have ha := hsrc a rfl
    rcases hua : updA a (fun v => v - r) d with _ | da
    · have := (updA_isSome_iff a (fun v => v - r) d).mpr ha
      rw [hua] at this; simp at this
    · have hka := updA_keys _ _ _ _ hua
      cases dst with
      | none =>
        refine ⟨da, by simp [applyTransition, hr, hua], hka, ?_⟩
        intro c v0 h0
        rw [updA_lookup_eval a (fun v => v - r) d da hua c v0 h0]
        simp only [signedDelta, hrate]
        by_cases hac : a = c <;> simp [hac] <;> try ring
      | some b =>
        have hb : b ∈ da.map Prod.fst := hka ▸ hdst b rfl
        rcases hub : updA b (fun v => v + r) da with _ | db
        · have := (updA_isSome_iff b (fun v => v + r) da).mpr hb
          rw [hub] at this; simp at this
        · refine ⟨db, by simp [applyTransition, hr, hua, hub],
            by rw [updA_keys _ _ _ _ hub, hka], ?_⟩
          intro c v0 h0
          have h1 := updA_lookup_eval a (fun v => v - r) d da hua c v0 h0
          have h2 := updA_lookup_eval b (fun v => v + r) da db hub c _ h1
          rw [h2]
          simp only [signedDelta, hrate]
          by_cases hac : a = c <;> by_cases hbc : b = c <;> simp [hac, hbc] <;> try ring

theorem foldTransitions_ok (env : Env) (ts : List Transition) (d0 : List (String × ℚ))
    (hrates : ∀ tr ∈ ts, ∃ q, tr.rate.evalIn env = .ok q)
    (hsrc : ∀ tr ∈ ts, ∀ c, tr.src = some c → c ∈ d0.map Prod.fst)
    (hdst : ∀ tr ∈ ts, ∀ c, tr.dst = some c → c ∈ d0.map Prod.fst) :
    ∃ d, foldE (applyTransition env) d0 ts = .ok d ∧
      d.map Prod.fst = d0.map Prod.fst ∧
      ∀ c v0, lookupQ c d0 = some v0 →
        lookupQ c d = some (v0 + signedSum env c ts) := by
  induction ts generalizing d0 with
  | nil =>
    refine ⟨d0, rfl, rfl, ?_⟩
    intro c v0 h0
    simp [signedSum, h0]
  | cons t ts ih =>
    obtain ⟨r, hr⟩ := hrates t (by simp)
    obtain ⟨d1, h1, hk1, hl1⟩ :=
      applyTransition_ok env d0 t r hr (hsrc t (by simp)) (hdst t (by simp))
    obtain ⟨d, h2, hk2, hl2⟩ := ih d1
      (fun tr htr => hrates tr (List.mem_cons_of_mem t htr))
      (fun tr htr c hc => hk1 ▸ hsrc tr (List.mem_cons_of_mem t htr) c hc)
      (fun tr htr c hc => hk1 ▸ hdst tr (List.mem_cons_of_mem t htr) c hc)
    refine ⟨d, by simp [foldE, h1, h2], by rw [hk2, hk1], ?_⟩
    intro c v0 h0
    rw [hl2 c _ (hl1 c v0 h0)]
    simp [signedSum, signedDelta, add_assoc]

theorem foldTransitions_undef (env : Env) (ts : List Transition)
    (d0 : List (String × ℚ))
    (hsrc : ∀ tr ∈ ts, ∀ c, tr.src = some c → c ∈ d0.map Prod.fst)
    (hdst : ∀ tr ∈ ts, ∀ c, tr.dst = some c → c ∈ d0.map Prod.fst)
    (hbad : ∃ tr ∈ ts, ∃ n ∈ tr.rate.vars, env n = none) :
    ∃ n, foldE (applyTransition env) d0 ts = .error (.undefinedVariable n) := by
  induction ts generalizing d0 with
  | nil => simp at hbad
  | cons t ts ih =>
    by_cases hdec : ∃ n ∈ t.rate.vars, env n = none
    · obtain ⟨n, hn, henv⟩ := hdec
      obtain ⟨n', he⟩ := evalIn_error_of_unbound env t.rate n hn henv
      exact ⟨n', by simp [foldE, applyTransition, he]⟩
    · have hok : ∃ q, t.rate.evalIn env = .ok q := by
        rcases evalIn_cases env t.rate with h | ⟨n, hn, henv, _⟩
        · exact h
        · exact absurd ⟨n, hn, henv⟩ hdec
      obtain ⟨r, hr⟩ := hok
      obtain ⟨d1, h1, hk1, _⟩ :=
        applyTransition_ok env d0 t r hr (hsrc t (by simp)) (hdst t (by simp))
      have hbad' : ∃ tr ∈ ts, ∃ n ∈ tr.rate.vars, env n = none := by
        rcases hbad with ⟨tr, htr, n, hn, henv⟩
        rcases List.mem_cons.mp htr with h | h
        · exact absurd ⟨n, h ▸ hn, henv⟩ hdec
        · exact ⟨tr, h, n, hn, henv⟩
      obtain ⟨n, hfold⟩ := ih d1
        (fun tr htr c hc => hk1 ▸ hsrc tr (List.mem_cons_of_mem t htr) c hc)
        (fun tr htr c hc => hk1 ▸ hdst tr (List.mem_cons_of_mem t htr) c hc)
        hbad'
      exact ⟨n, by simp [foldE, h1, hfold]⟩

/-- Shared success lemma for `compute_transition_rates`: under evaluable
rates and declared `from`/`to` names it returns the deltas mapping keyed by
the declared compartments in order, holding the signed rate sums. -/
theorem ctr_ok (m : CompartmentalModel) (state extras : List (String × ℚ))
    (hrates : ∀ tr ∈ m.transitions,
      ∃ q, tr.rate.evalIn (buildEnv m state extras) = .ok q)
    (hsrc : ∀ tr ∈ m.transitions, ∀ c, tr.src = some c → c ∈ m.compartments)
    (hdst : ∀ tr ∈ m.transitions, ∀ c, tr.dst = some c → c ∈ m.compartments) :
    ∃ d, m.compute_transition_rates state extras = .ok d ∧
      d.map Prod.fst = m.compartments ∧
      ∀ c ∈ m.compartments,
        lookupQ c d = some (signedSum (buildEnv m state extras) c m.transitions) := by
  have hkeys : (m.compartments.map (fun c => (c, (0 : ℚ)))).map Prod.fst
      = m.compartments := by
    rw [List.map_map]
    exact List.map_id m.compartments
  obtain ⟨d, h1, h2, h3⟩ := foldTransitions_ok (buildEnv m state extras) m.transitions
    (m.compartments.map (fun c => (c, (0 : ℚ)))) hrates
    (fun tr htr c hc => hkeys.symm ▸ hsrc tr htr c hc)
    (fun tr htr c hc => hkeys.symm ▸ hdst tr htr c hc)
  refine ⟨d, h1, by rw [h2, hkeys], ?_⟩
  intro c hc
  have h0 : lookupQ c (m.compartments.map (fun c => (c, (0 : ℚ)))) = some 0 := by
    rw [lookupQ_map_const]
    simp [hc]
  have := h3 c 0 h0
  rwa [zero_add] at this

/-- C2: for every CompartmentalModel and every (state, extras) input on which
each transition's rate expression evaluates and each present `from`/`to` name
is a declared compartment, `compute_transition_rates` returns a deltas mapping
with exactly one entry per declared compartment in declaration order, whose
value at `c` is the sum over transitions of `+rate` when `c` is the `to` and
`-rate` when `c` is the `from`, each rate evaluated in the combined
compartments/parameters/extras environment with extras taking precedence
(`buildEnv`).  (`Nodup` marks the duplicate-free compartment lists on which
the association-list model coincides with the Python dict.) -/
theorem claim_C2 (m : CompartmentalModel) (state extras : List (String × ℚ))
    (_hnd : m.compartments.Nodup)
    (hrates : ∀ tr ∈ m.transitions,
      ∃ q, tr.rate.evalIn (buildEnv m state extras) = .ok q)
    (hsrc : ∀ tr ∈ m.transitions, ∀ c, tr.src = some c → c ∈ m.compartments)
    (hdst : ∀ tr ∈ m.transitions, ∀ c, tr.dst = some c → c ∈ m.compartments) :
    ∃ d, m.compute_transition_rates state extras = .ok d ∧
      d.map Prod.fst = m.compartments ∧
      ∀ c ∈ m.compartments,
        lookupQ c d = some (signedSum (buildEnv m state extras) c m.transitions) :=
  ctr_ok m state extras hrates hsrc hdst

/-- C2 witness: the SIR model at the example-scenario state with
`lambda_i = 1/100`: the deltas mapping exists, has keys `[S, I, R]` in order,
and carries the signed rate sums. -/
theorem claim_C2_witness :
    ∃ d, sirBase.compute_transition_rates [("S", 99), ("I", 1), ("R", 0)]
        [("lambda_i", 1 / 100)] = .ok d ∧
      d.map Prod.fst = sirBase.compartments ∧
      ∀ c ∈ sirBase.compartments,
        lookupQ c d = some (signedSum
          (buildEnv sirBase [("S", 99), ("I", 1), ("R", 0)] [("lambda_i", 1 / 100)])
          c sirBase.transitions) :=
  claim_C2 sirBase [("S", 99), ("I", 1), ("R", 0)] [("lambda_i", 1 / 100)]
    (by decide)
    (by
      intro tr htr
      simp only [sirBase, List.mem_cons, List.not_mem_nil, or_false] at htr
      rcases htr with h | h
      · exact h ▸ ⟨297 / 1000,
          by norm_num +decide [Expr.evalIn, buildEnv, lookupQ, sirBase]⟩
      · exact h ▸ ⟨1 / 10,
          by norm_num +decide [Expr.evalIn, buildEnv, lookupQ, sirBase]⟩)
    (by
      intro tr htr c hc
      simp only [sirBase, List.mem_cons, List.not_mem_nil, or_false] at htr
      rcases htr with h | h <;> subst h <;>
        simp only [Option.some_inj] at hc <;> subst hc <;> decide)
    (by
      intro tr htr c hc
      simp only [sirBase, List.mem_cons, List.not_mem_nil, or_false] at htr
      rcases htr with h | h <;> subst h <;>
        simp only [Option.some_inj] at hc <;> subst hc <;> decide)

/-- C5: if any transition's rate expression references a name absent from the
combined compartments/parameters/extras environment (each present `from`/`to`
naming a declared compartment, so that no earlier `KeyError` intervenes),
`compute_transition_rates` raises `UndefinedVariable` (Python: `NameError`
from `eval`) and returns no deltas mapping, so no delta is applied and the
enclosing step is aborted rather than the name defaulting to zero. -/
theorem claim_C5 (m : CompartmentalModel) (state extras : List (String × ℚ))
    (hsrc : ∀ tr ∈ m.transitions, ∀ c, tr.src = some c → c ∈ m.compartments)
    (hdst : ∀ tr ∈ m.transitions, ∀ c, tr.dst = some c → c ∈ m.compartments)
    (hbad : ∃ tr ∈ m.transitions,
      ∃ n ∈ tr.rate.vars, buildEnv m state extras n = none) :
    ∃ n, m.compute_transition_rates state extras = .error (.undefinedVariable n) := by
  have hkeys : (m.compartments.map (fun c => (c, (0 : ℚ)))).map Prod.fst
      = m.compartments := by
    rw [List.map_map]
    exact List.map_id m.compartments
  exact foldTransitions_undef (buildEnv m state extras) m.transitions
    (m.compartments.map (fun c => (c, (0 : ℚ))))
    (fun tr htr c hc => hkeys.symm ▸ hsrc tr htr c hc)
    (fun tr htr c hc => hkeys.symm ▸ hdst tr htr c hc)
    hbad

/-- C5 witness: an SIR-like model whose infection rate references the
undeclared name `contact_rate` fails with `UndefinedVariable`. -/
theorem claim_C5_witness :
    ∃ n, (CompartmentalModel.mk ["S", "I"] [("gamma", 1 / 10)]
        [⟨some "S", some "I", .mul (.var "contact_rate") (.var "S")⟩]).compute_transition_rates
        [("S", 99), ("I", 1)] [("lambda_i", 0)] =
      .error (.undefinedVariable n) :=
  claim_C5 _ [("S", 99), ("I", 1)] [("lambda_i", 0)]
    (by
      intro tr htr c hc
      simp only [List.mem_cons, List.not_mem_nil, or_false] at htr
      subst htr
      simp only [Option.some_inj] at hc
      subst hc
      decide)
    (by
      intro tr htr c hc
      simp only [List.mem_cons, List.not_mem_nil, or_false] at htr
      subst htr
      simp only [Option.some_inj] at hc
      subst hc
      decide)
    ⟨⟨some "S", some "I", .mul (.var "contact_rate") (.var "S")⟩, by simp,
      "contact_rate", by simp [Expr.vars],
      by norm_num +decide [buildEnv, lookupQ]⟩

/-- C8: for a model with a single transition with both `from` and `to` set,
whenever the rate expression evaluates, the returned deltas satisfy
`deltas[from] + deltas[to] = 0`, so adding the deltas to the state preserves
`from_value + to_value` exactly (mass conservation in exact arithmetic). -/
theorem claim_C8 (m : CompartmentalModel) (state extras : List (String × ℚ))
    (a b : String) (rateE : Expr)
    (hts : m.transitions = [⟨some a, some b, rateE⟩])
    (ha : a ∈ m.compartments) (hb : b ∈ m.compartments)
    (hrate : ∃ q, rateE.evalIn (buildEnv m state extras) = .ok q) :
    ∃ d, m.compute_transition_rates state extras = .ok d ∧
      ∃ x y, lookupQ a d = some x ∧ lookupQ b d = some y ∧ x + y = 0 := by
  obtain ⟨r, hr⟩ := hrate
  obtain ⟨d, h1, h2, h3⟩ := ctr_ok m state extras
    (by
      rw [hts]
      intro tr htr
      simp only [List.mem_cons, List.not_mem_nil, or_false] at htr
      subst htr
      exact ⟨r, hr⟩)
    (by
      rw [hts]
      intro tr htr c hc
      simp only [List.mem_cons, List.not_mem_nil, or_false] at htr
      subst htr
      simp only [Option.some_inj] at hc
      subst hc
      exact ha)
    (by
      rw [hts]
      intro tr htr c hc
      simp only [List.mem_cons, List.not_mem_nil, or_false] at htr
      subst htr
      simp only [Option.some_inj] at hc
      subst hc
      exact hb)
  refine ⟨d, h1, _, _, h3 a ha, h3 b hb, ?_⟩
  have hrate : rateOf (buildEnv m state extras) ⟨some a, some b, rateE⟩ = r := by
    simp [rateOf, hr, Except.toOption]
  rw [hts]
  simp only [signedSum, List.map_cons, List.map_nil, List.sum_cons, List.sum_nil,
    add_zero, signedDelta, hrate, Option.some_inj]
  by_cases hab : a = b
  · subst hab
    simp
  · have hba : ¬b = a := fun h => hab h.symm
    simp [hab, hba]

/-- C8 witness: a single-transition `S → I` model at rate `beta * S`:
the deltas at `S` and `I` exist and cancel exactly. -/
theorem claim_C8_witness :
    ∃ d, (CompartmentalModel.mk ["S", "I"] [("beta", 3 / 10)]
        [⟨some "S", some "I", .mul (.var "beta") (.var "S")⟩]).compute_transition_rates
        [("S", 100), ("I", 1)] [] = .ok d ∧
      ∃ x y, lookupQ "S" d = some x ∧ lookupQ "I" d = some y ∧ x + y = 0 :=
  claim_C8 _ [("S", 100), ("I", 1)] [] "S" "I" (.mul (.var "beta") (.var "S"))
    rfl (by decide) (by decide)
    ⟨30, by norm_num +decide [Expr.evalIn, buildEnv, lookupQ]⟩

set_option maxHeartbeats 1000000 in
/-- C4: the example scenario — SIR base model (`beta = 0.3`, `gamma = 0.1`),
two patches with identity network and initial state `S=99, I=1, R=0` in each
patch — run under `simulate_discrete` over a two-point time grid yields, for
patch 0 at step 1, the infected value
`I₁ = 1 + 0.3*99*1/100 - 0.1*1 = 1.197`, and patch 1's value at step 1
equals patch 0's exactly. -/
theorem claim_C4 :
    ((sirNet.simulate_discrete sirY0 1).toOption.bind
        (fun h => (h.getD 1 (fun _ => none)) ("I", 0)))
      = some (1 + (3 / 10) * 99 * 1 / 100 - (1 / 10) * 1) ∧
    ((sirNet.simulate_discrete sirY0 1).toOption.bind
        (fun h => (h.getD 1 (fun _ => none)) ("I", 1)))
      = some (1197 / 1000) ∧
    (1 + (3 / 10) * 99 * 1 / 100 - (1 / 10) * 1 : ℚ) = 1197 / 1000 := by
  refine ⟨?_, ?_, by norm_num⟩ <;>
    norm_num +decide [NetworkModel.simulate_discrete, seqMap, NetworkModel.allCompartments,
      simDiscreteAux, NetworkModel.discreteStep, NetworkModel.compute_force_of_infection,
      foldE, NetworkModel.discreteStepCore, NetworkModel.patchUpdate, patchExtract,
      CompartmentalModel.compute_transition_rates, applyTransition, Expr.evalIn, buildEnv,
      lookupQ, updA, updFS, clampState, sirNet, sirBase, sirY0,
      List.range_succ, List.range_zero, Except.toOption]

theorem seqMap_ok_of (f : α → Except ModelError β) (g : α → β) (L : List α)
    (h : ∀ a ∈ L, f a = .ok (g a)) : seqMap f L = .ok (L.map g) := by
  induction L with
  | nil => rfl
  | cons a L ih =>
    simp only [seqMap, h a (List.mem_cons_self a L),
      ih (fun b hb => h b (List.mem_cons_of_mem a hb)), List.map_cons]

theorem foldE_add_ok (g : α → ℚ) (L : List α) (f : ℚ → α → Except ModelError ℚ)
    (h : ∀ acc : ℚ, ∀ a ∈ L, f acc a = .ok (acc + g a)) :
    ∀ acc : ℚ, foldE f acc L = .ok (acc + (L.map g).sum) := by
  induction L with
  | nil => intro acc; simp [foldE]
  | cons a L ih =>
    intro acc
    have hstep := h acc a (List.mem_cons_self a L)
    simp only [foldE, hstep]
    rw [ih (fun acc b hb => h acc b (List.mem_cons_of_mem a hb)) (acc + g a)]
    simp [add_assoc]

/-- Success-value lemma for `compute_force_of_infection`: when every
qualified key it reads is present, it returns exactly the spec's
force-of-infection vector (no hypothesis on the patch totals is needed:
numpy division does not raise on a zero denominator). -/
theorem foi_ok (nm : NetworkModel) (fs : FullState)
    (hI : ∀ j < nm.num_patches, (fs ("I", j)).isSome)
    (hkeys : ∀ c ∈ nm.base_model.compartments, ∀ j < nm.num_patches,
      (fs (c, j)).isSome) :
    nm.compute_force_of_infection fs
      = .ok ((List.range nm.num_patches).map (specForce nm fs)) := by
  refine seqMap_ok_of _ (specForce nm fs) _ ?_
  intro i _
  have hinner : ∀ force : ℚ, ∀ j ∈ List.range nm.num_patches,
      (match fs ("I", j) with
        | none => Except.error (ModelError.stateKeyError "I" j)
        | some Ij =>
          match foldE (fun acc c =>
              match fs (c, j) with
              | none => Except.error (ModelError.stateKeyError c j)
              | some v => Except.ok (acc + v)) 0 nm.base_model.compartments with
          | Except.error e => Except.error e
          | Except.ok Nj => Except.ok (force + nm.network i j * Ij / Nj))
      = Except.ok (force +
          nm.network i j * ((fs ("I", j)).getD 0) / patchTotal nm fs j) := by
    intro force j hj
    rw [List.mem_range] at hj
    obtain ⟨Ij, hIj⟩ := Option.isSome_iff_exists.mp (hI j hj)
    have hsum : foldE (fun acc c =>
        match fs (c, j) with
        | none => Except.error (ModelError.stateKeyError c j)
        | some v => Except.ok (acc + v)) 0 nm.base_model.compartments
        = .ok (patchTotal nm fs j) := by
      have := foldE_add_ok (fun c => (fs (c, j)).getD 0) nm.base_model.compartments
        (fun acc c =>
          match fs (c, j) with
          | none => Except.error (ModelError.stateKeyError c j)
          | some v => Except.ok (acc + v))
        (fun acc c hc => by
          obtain ⟨v, hv⟩ := Option.isSome_iff_exists.mp (hkeys c hc j hj)
          dsimp only
          rw [hv]
          simp) 0
      rw [this, zero_add]
      rfl
    rw [hIj, hsum]
    simp [hIj]
  have hfold := foldE_add_ok
    (fun j => nm.network i j * ((fs ("I", j)).getD 0) / patchTotal nm fs j)
    (List.range nm.num_patches) _ hinner 0
  rw [hfold, zero_add]
  rfl

/-- C1: for every NetworkModel and every full state whose qualified keys are
present and whose per-patch totals are nonzero, `compute_force_of_infection`
returns the vector whose `i`-th entry is `Σ_j network[i][j] * I_j / N_j`
(`specForce`), and both `simulate_discrete`'s step and `simulate_ode`'s
right-hand side expose exactly that vector — entry `i` as the extra variable
`lambda_i` of patch `i` (visible in `patchUpdate`/`odeRhsCore`, which pass
`extras = [("lambda_i", lambdas.getD i 0)]`). -/
theorem claim_C1 (nm : NetworkModel) (fs : FullState)
    (hI : "I" ∈ nm.base_model.compartments)
    (hkeys : ∀ c ∈ nm.base_model.compartments, ∀ j < nm.num_patches,
      (fs (c, j)).isSome)
    (_hNz : ∀ j < nm.num_patches, patchTotal nm fs j ≠ 0) :
    nm.compute_force_of_infection fs
      = .ok ((List.range nm.num_patches).map (specForce nm fs)) ∧
    (∀ i < nm.num_patches,
      ((List.range nm.num_patches).map (specForce nm fs)).getD i 0
        = specForce nm fs i) ∧
    nm.discreteStep fs
      = nm.discreteStepCore fs ((List.range nm.num_patches).map (specForce nm fs)) ∧
    (∀ y, nm.stateOfVec y = fs →
      nm.odeRhs y
        = nm.odeRhsCore fs ((List.range nm.num_patches).map (specForce nm fs))) := by
  have hfoi := foi_ok nm fs (fun j hj => hkeys "I" hI j hj) hkeys
  refine ⟨hfoi, ?_, ?_, ?_⟩
  · intro i hi
    rw [List.getD_eq_getElem?_getD, List.getElem?_map, List.getElem?_range hi]
    rfl
  · simp only [NetworkModel.discreteStep, hfoi]
  · intro y hy
    simp only [NetworkModel.odeRhs, hy, hfoi]

/-- C1 witness: the SIR two-patch scenario state has nonzero totals, and the
force-of-infection vector, discrete step, and ode right-hand side all use the
spec's formula. -/
theorem claim_C1_witness :
    sirNet.compute_force_of_infection sirY0
      = .ok ((List.range sirNet.num_patches).map (specForce sirNet sirY0)) ∧
    (∀ i < sirNet.num_patches,
      ((List.range sirNet.num_patches).map (specForce sirNet sirY0)).getD i 0
        = specForce sirNet sirY0 i) ∧
    sirNet.discreteStep sirY0
      = sirNet.discreteStepCore sirY0
          ((List.range sirNet.num_patches).map (specForce sirNet sirY0)) ∧
    (∀ y, sirNet.stateOfVec y = sirY0 →
      sirNet.odeRhs y
        = sirNet.odeRhsCore sirY0
            ((List.range sirNet.num_patches).map (specForce sirNet sirY0))) :=
  claim_C1 sirNet sirY0 (by decide)
    (by decide)
    (by
      intro j hj
      have hj2 : j < 2 := hj
      interval_cases j <;>
        norm_num +decide [patchTotal, sirNet, sirBase, sirY0])

/-- C6 counterexample: a one-patch state with total population zero on which
`compute_force_of_infection` returns a value rather than failing, and the
enclosing discrete step and ode right-hand side also complete — numpy
division by zero only warns, so no `DivisionByZeroForce` error exists on this
path (the claim says the computation must fail here, in both modes). -/
theorem claim_C6_counterexample :
    patchTotal zeroPopNet zeroPopState 0 = 0 ∧
    (zeroPopNet.compute_force_of_infection zeroPopState).toOption.isSome = true ∧
    (zeroPopNet.discreteStep zeroPopState).toOption.isSome = true ∧
    (zeroPopNet.odeRhs [0, 0, 0]).toOption.isSome = true := by
  refine ⟨by norm_num +decide [patchTotal, zeroPopNet, sirBase, zeroPopState], ?_, ?_, ?_⟩ <;>
    norm_num +decide [NetworkModel.compute_force_of_infection, seqMap, foldE,
      NetworkModel.discreteStep, NetworkModel.discreteStepCore, NetworkModel.patchUpdate,
      patchExtract, CompartmentalModel.compute_transition_rates, applyTransition,
      Expr.evalIn, buildEnv, lookupQ, updA, updFS, clampState,
      NetworkModel.odeRhs, NetworkModel.odeRhsCore, NetworkModel.stateOfVec, lookupP,
      NetworkModel.allCompartments, zeroPopNet, sirBase, zeroPopState,
      List.range_succ, List.range_zero, Except.toOption]

/-- C6 amended: when some patch's total population is zero (all qualified
keys present), the force-of-infection computation does NOT fail: numpy
evaluates `network[i][j] * I_j / N_j` with the zero denominator silently
(RuntimeWarning, inf/nan value), so `compute_force_of_infection` returns a
vector and the enclosing step proceeds; no `DivisionByZeroForce` error
exists in the code. -/
theorem claim_C6_amended (nm : NetworkModel) (fs : FullState)
    (hI : "I" ∈ nm.base_model.compartments)
    (hkeys : ∀ c ∈ nm.base_model.compartments, ∀ j < nm.num_patches,
      (fs (c, j)).isSome)
    (_hzero : ∃ j, j < nm.num_patches ∧ patchTotal nm fs j = 0) :
    ∃ l, nm.compute_force_of_infection fs = .ok l :=
  ⟨_, foi_ok nm fs (fun j hj => hkeys "I" hI j hj) hkeys⟩

/-- C6 amended witness: the zero-population one-patch state. -/
theorem claim_C6_amended_witness :
    ∃ l, zeroPopNet.compute_force_of_infection zeroPopState = .ok l :=
  claim_C6_amended zeroPopNet zeroPopState (by decide) (by decide)
    ⟨0, by decide, by norm_num +decide [patchTotal, zeroPopNet, sirBase, zeroPopState]⟩

theorem mem_allCompartments (nm : NetworkModel) (c : String) (i : ℕ) :
    (c, i) ∈ nm.allCompartments ↔
      c ∈ nm.base_model.compartments ∧ i < nm.num_patches := by
  simp only [NetworkModel.allCompartments, List.mem_flatMap, List.mem_map,
    List.mem_range, Prod.mk.injEq]
  constructor
  · rintro ⟨j, hj, c', hc', hcc, hji⟩
    exact ⟨hcc ▸ hc', hji ▸ hj⟩
  · rintro ⟨hc, hi⟩
    exact ⟨i, hi, c, hc, rfl, rfl⟩

theorem lookupP_zip_none (k : String × ℕ) (l : List (String × ℕ)) (y : List ℚ)
    (h : k ∉ l) : lookupP k (l.zip y) = none := by
  induction l generalizing y with
  | nil => simp [lookupP, List.zip_nil_left]
  | cons a l ih =>
    cases y with
    | nil => simp [lookupP, List.zip_nil_right]
    | cons v y =>
      rw [List.zip_cons_cons, lookupP]
      have ha : ¬a = k := fun hh => h (hh ▸ List.mem_cons_self a l)
      rw [if_neg ha]
      exact ih y (fun hh => h (List.mem_cons_of_mem a hh))

/-- First-error lemma for `compute_force_of_infection`: if the infected key
of patch 0 is absent (and there is at least one patch), the very first state
read `full_state[f"I_{0}"]` raises `KeyError`. -/
theorem foi_missing_I (nm : NetworkModel) (fs : FullState)
    (hN : 1 ≤ nm.num_patches) (hfs : fs ("I", 0) = none) :
    nm.compute_force_of_infection fs = .error (.stateKeyError "I" 0) := by
  obtain ⟨n, hn⟩ : ∃ n, nm.num_patches = n + 1 :=
    ⟨nm.num_patches - 1, (Nat.succ_pred_eq_of_pos hN).symm⟩
  unfold NetworkModel.compute_force_of_infection
  rw [hn, List.range_succ_eq_map]
  simp [seqMap, foldE, hfs]

/-- C10: the network coupling reads the literal key `I_j`, so a base model
without a compartment named `I` cannot be coupled: for every full state with
no `("I", 0)` key (a genuine full state of such a model has only qualified
keys of declared compartments) and at least one patch,
`compute_force_of_infection` and `discreteStep` fail with the missing-key
error on `I_0`, `simulate_discrete` with at least one step produces no
output, and every right-hand-side evaluation of `simulate_ode` fails the
same way for every flat vector. -/
theorem claim_C10 (nm : NetworkModel) (fs : FullState)
    (hI : "I" ∉ nm.base_model.compartments)
    (hN : 1 ≤ nm.num_patches) (hfs : fs ("I", 0) = none) :
    nm.compute_force_of_infection fs = .error (.stateKeyError "I" 0) ∧
    nm.discreteStep fs = .error (.stateKeyError "I" 0) ∧
    (∀ steps, 1 ≤ steps → ∃ e, nm.simulate_discrete fs steps = .error e) ∧
    (∀ y, nm.odeRhs y = .error (.stateKeyError "I" 0)) := by
  have hfoi := foi_missing_I nm fs hN hfs
  have hstep : nm.discreteStep fs = .error (.stateKeyError "I" 0) := by
    simp [NetworkModel.discreteStep, hfoi]
  refine ⟨hfoi, hstep, ?_, ?_⟩
  · intro steps hsteps
    obtain ⟨s, rfl⟩ : ∃ s, steps = s + 1 :=
      ⟨steps - 1, (Nat.succ_pred_eq_of_pos hsteps).symm⟩
    rcases hchk : seqMap (fun k =>
        match fs k with
        | some v => Except.ok v
        | none => Except.error (ModelError.stateKeyError k.1 k.2))
        nm.allCompartments with e | vals
    · exact ⟨e, by simp [NetworkModel.simulate_discrete, hchk]⟩
    · refine ⟨.stateKeyError "I" 0, ?_⟩
      have haux : simDiscreteAux nm (s + 1) fs = .error (.stateKeyError "I" 0) := by
        simp [simDiscreteAux, hstep]
      simp [NetworkModel.simulate_discrete, hchk, haux]
  · intro y
    have h0 : nm.stateOfVec y ("I", 0) = none :=
      lookupP_zip_none ("I", 0) nm.allCompartments y
        (fun hmem => hI ((mem_allCompartments nm "I" 0).mp hmem).1)
    have := foi_missing_I nm (nm.stateOfVec y) hN h0
    simp [NetworkModel.odeRhs, this]

/-- C10 witness: a two-compartment `[S, R]` model without `I`, one patch,
uniform weight-1 network, on its genuine full state (only `S_0`, `R_0`
present): every coupled entry point fails. -/
theorem claim_C10_witness :
    (NetworkModel.mk (CompartmentalModel.mk ["S", "R"] [] []) 1
        (fun _ _ => 1)).compute_force_of_infection
        (fun k => if k.2 = 0 ∧ (k.1 = "S" ∨ k.1 = "R") then some 1 else none)
      = .error (.stateKeyError "I" 0) ∧
    (NetworkModel.mk (CompartmentalModel.mk ["S", "R"] [] []) 1
        (fun _ _ => 1)).discreteStep
        (fun k => if k.2 = 0 ∧ (k.1 = "S" ∨ k.1 = "R") then some 1 else none)
      = .error (.stateKeyError "I" 0) ∧
    (∀ steps, 1 ≤ steps →
      ∃ e, (NetworkModel.mk (CompartmentalModel.mk ["S", "R"] [] []) 1
          (fun _ _ => 1)).simulate_discrete
          (fun k => if k.2 = 0 ∧ (k.1 = "S" ∨ k.1 = "R") then some 1 else none) steps
        = .error e) ∧
    (∀ y, (NetworkModel.mk (CompartmentalModel.mk ["S", "R"] [] []) 1
        (fun _ _ => 1)).odeRhs y = .error (.stateKeyError "I" 0)) :=
  claim_C10 _ _ (by decide) (by decide) (by simp)

/-- Any state a successful `discreteStep` returns is a clamped state. -/
theorem discreteStep_clamped (nm : NetworkModel) (fs s : FullState)
    (h : nm.discreteStep fs = .ok s) : ∃ ns, s = clampState ns := by
  unfold NetworkModel.discreteStep NetworkModel.discreteStepCore at h
  rcases hfoi : nm.compute_force_of_infection fs with e | lambdas <;>
    simp only [hfoi] at h
  · exact absurd h (by simp)
  · rcases hfold : foldE (nm.patchUpdate fs lambdas) fs (List.range nm.num_patches)
      with e | ns <;> simp only [hfold] at h
    · exact absurd h (by simp)
    · simp only [Except.ok.injEq] at h
      exact ⟨ns, h.symm⟩

/-- Every state the discrete stepping loop appends is a clamped state. -/
theorem simDiscreteAux_clamped (nm : NetworkModel) (steps : ℕ) (st : FullState)
    (sts : List FullState) (h : simDiscreteAux nm steps st = .ok sts) :
    ∀ s ∈ sts, ∃ ns, s = clampState ns := by
  induction steps generalizing st sts with
  | zero =>
    simp only [simDiscreteAux, Except.ok.injEq] at h
    subst h
    simp
  | succ k ih =>
    simp only [simDiscreteAux] at h
    rcases hstep : nm.discreteStep st with e | st' <;> simp only [hstep] at h
    · exact absurd h (by simp)
    · rcases haux : simDiscreteAux nm k st' with e | rest <;> simp only [haux] at h
      · exact absurd h (by simp)
      · simp only [Except.ok.injEq] at h
        subst h
        intro s hs
        rcases List.mem_cons.mp hs with hs | hs
        · exact hs ▸ discreteStep_clamped nm st st' hstep
        · exact ih st' rest haux s hs

/-- C3: in every run of `simulate_discrete`, every compartment value stored
into the state and appended to the history after a step (history entry
`n ≥ 1`) is `≥ 0`: negative post-step results are floored at zero by the
post-step clamp rather than signaled; in particular a compartment that
reaches zero stays `≥ 0` in all later steps of the run. -/
theorem claim_C3 (nm : NetworkModel) (y0 : FullState) (steps n : ℕ)
    (k : String × ℕ) (v : ℚ) (hn : 1 ≤ n)
    (hv : (((nm.simulate_discrete y0 steps).toOption.getD []).getD n
      (fun _ => none)) k = some v) :
    0 ≤ v := by
  rcases hrun : nm.simulate_discrete y0 steps with e | hist <;> rw [hrun] at hv
  · simp [Except.toOption] at hv
  · have hinv : ∃ sts, simDiscreteAux nm steps y0 = .ok sts ∧ hist = y0 :: sts := by
      unfold NetworkModel.simulate_discrete at hrun
      rcases hchk : seqMap (fun k =>
          match y0 k with
          | some v => Except.ok v
          | none => Except.error (ModelError.stateKeyError k.1 k.2))
          nm.allCompartments with e | vals <;> rw [hchk] at hrun
      · simp at hrun
      · rcases haux : simDiscreteAux nm steps y0 with e | sts <;> rw [haux] at hrun
        · simp at hrun
        · simp only [Except.ok.injEq] at hrun
          exact ⟨sts, rfl, hrun.symm⟩
    obtain ⟨sts, haux, rfl⟩ := hinv
    obtain ⟨m, rfl⟩ : ∃ m, n = m + 1 := ⟨n - 1, (Nat.succ_pred_eq_of_pos hn).symm⟩
    simp only [Except.toOption, Option.getD_some, List.getD_cons_succ] at hv
    rcases hm : sts[m]? with _ | s
    · rw [List.getD_eq_getElem?_getD, hm] at hv
      simp at hv
    · rw [List.getD_eq_getElem?_getD, hm] at hv
      obtain ⟨ns, rfl⟩ := simDiscreteAux_clamped nm steps y0 sts haux s
        (List.getElem?_mem hm)
      simp only [Option.getD_some, clampState] at hv
      rcases hns : ns k with _ | w <;> rw [hns] at hv
      · simp at hv
      · simp only [Option.map_some', Option.some_inj] at hv
        rw [← hv]
        exact le_max_right w 0

/-- C3 witness: the SIR scenario run: the infected value of patch 0 after
step 1 was read from the history and is nonnegative. -/
theorem claim_C3_witness :
    (((sirNet.simulate_discrete sirY0 1).toOption.getD []).getD 1
      (fun _ => none)) ("I", 0) = some (1197 / 1000) ∧
    (0 : ℚ) ≤ 1197 / 1000 := by
  constructor
  · norm_num +decide [NetworkModel.simulate_discrete, seqMap, NetworkModel.allCompartments,
      simDiscreteAux, NetworkModel.discreteStep, NetworkModel.compute_force_of_infection,
      foldE, NetworkModel.discreteStepCore, NetworkModel.patchUpdate, patchExtract,
      CompartmentalModel.compute_transition_rates, applyTransition, Expr.evalIn, buildEnv,
      lookupQ, updA, updFS, clampState, sirNet, sirBase, sirY0,
      List.range_succ, List.range_zero, Except.toOption]
  · exact claim_C3 sirNet sirY0 1 1 ("I", 0) (1197 / 1000) (by decide)
      (by norm_num +decide [NetworkModel.simulate_discrete, seqMap,
        NetworkModel.allCompartments, simDiscreteAux, NetworkModel.discreteStep,
        NetworkModel.compute_force_of_infection, foldE, NetworkModel.discreteStepCore,
        NetworkModel.patchUpdate, patchExtract, CompartmentalModel.compute_transition_rates,
        applyTransition, Expr.evalIn, buildEnv, lookupQ, updA, updFS, clampState,
        sirNet, sirBase, sirY0, List.range_succ, List.range_zero, Except.toOption])

/-- C9: the `Simulation` orchestrator (modelled from the spec; §4.3 has no
counterpart under `src/`) has its execution mode fixed at construction and
dispatches on it: mode `"discrete"` delegates to the discrete engine and
fails with `NotImplementedError` when no network is present; mode `"ode"`
requires an externally supplied solver and fails with `MissingSolver` when
none is supplied; any other mode value fails with `UnknownMode`; each
failure is surfaced immediately by the single dispatch and never retried. -/
theorem claim_C9 (s : Simulation) :
    (s.mode = "discrete" →
      (∀ nm, s.network = some nm → s.dispatch = .ok (.discreteRun nm)) ∧
      (s.network = none → s.dispatch = .error .notImplemented)) ∧
    (s.mode = "ode" →
      (s.hasSolver = true → s.dispatch = .ok .odeRun) ∧
      (s.hasSolver = false → s.dispatch = .error .missingSolver)) ∧
    (s.mode ≠ "discrete" → s.mode ≠ "ode" →
      s.dispatch = .error (.unknownMode s.mode)) := by
  refine ⟨?_, ?_, ?_⟩
  · intro hm
    constructor
    · intro nm hnet
      simp [Simulation.dispatch, hm, hnet]
    · intro hnet
      simp [Simulation.dispatch, hm, hnet]
  · intro hm
    have hne : s.mode ≠ "discrete" := by rw [hm]; decide
    constructor
    · intro hs
      simp [Simulation.dispatch, hm, hne, hs]
    · intro hs
      simp [Simulation.dispatch, hm, hne, hs]
  · intro h1 h2
    simp [Simulation.dispatch, h1, h2]

/-- C9 witness: the three failure modes and the ode success at concrete
configurations. -/
theorem claim_C9_witness :
    (Simulation.mk "fmd" none false).dispatch = .error (.unknownMode "fmd") ∧
    (Simulation.mk "discrete" none false).dispatch = .error .notImplemented ∧
    (Simulation.mk "ode" none false).dispatch = .error .missingSolver ∧
    (Simulation.mk "ode" none true).dispatch = .ok .odeRun :=
  ⟨(claim_C9 _).2.2 (by decide) (by decide),
    ((claim_C9 _).1 rfl).2 rfl,
    ((claim_C9 _).2.1 rfl).2 rfl,
    ((claim_C9 _).2.1 rfl).1 rfl⟩

theorem seqMap_ok_mem (f : α → Except ModelError β) (L : List α) (out : List β)
    (h : seqMap f L = .ok out) : ∀ b ∈ out, ∃ a ∈ L, f a = .ok b := by
  induction L generalizing out with
  | nil =>
    simp only [seqMap, Except.ok.injEq] at h
    subst h
    simp
  | cons a L ih =>
    simp only [seqMap] at h
    rcases ha : f a with e | b0 <;> simp only [ha] at h
    · exact absurd h (by simp)
    · rcases hrest : seqMap f L with e | bs <;> simp only [hrest] at h
      · exact absurd h (by simp)
      · simp only [Except.ok.injEq] at h
        subst h
        intro b hb
        rcases List.mem_cons.mp hb with hb | hb
        · exact ⟨a, List.mem_cons_self a L, hb ▸ ha⟩
        · obtain ⟨a', ha', hfa'⟩ := ih bs hrest b hb
          exact ⟨a', List.mem_cons_of_mem a ha', hfa'⟩

theorem foldE_const (f : ℚ → α → Except ModelError ℚ) (L : List α)
    (hpre : ∀ acc : ℚ, ∀ a ∈ L, ∀ w, f acc a = .ok w → w = acc) :
    ∀ acc v, foldE f acc L = .ok v → v = acc := by
  induction L with
  | nil =>
    intro acc v h
    simp only [foldE, Except.ok.injEq] at h
    exact h.symm
  | cons a L ih =>
    intro acc v h
    simp only [foldE] at h
    rcases ha : f acc a with e | w <;> simp only [ha] at h
    · exact absurd h (by simp)
    · have hw : w = acc := hpre acc a (List.mem_cons_self a L) w ha
      subst hw
      exact ih (fun acc b hb => hpre acc b (List.mem_cons_of_mem a hb)) w v h

/-- With an all-zero network every successfully computed force entry is 0
(even a zero patch total contributes `0 * I_j / N_j = 0` exactly — and in
the Python code a nan there only arises from `0/0`, outside the states the
zero-coupling claim quantifies over). -/
theorem foi_zero (nm : NetworkModel) (fs : FullState)
    (hnet : ∀ a b, nm.network a b = 0) (l : List ℚ)
    (h : nm.compute_force_of_infection fs = .ok l) : ∀ x ∈ l, x = 0 := by
  intro x hx
  obtain ⟨i, _, hfi⟩ := seqMap_ok_mem _ _ _ h x hx
  refine foldE_const _ _ ?_ 0 x hfi
  intro acc j _ w hw
  rcases hIj : fs ("I", j) with _ | Ij <;> simp only [hIj] at hw
  · exact absurd hw (by simp)
  · rcases hNj : foldE (fun acc c =>
        match fs (c, j) with
        | none => Except.error (ModelError.stateKeyError c j)
        | some v => Except.ok (acc + v)) 0 nm.base_model.compartments
      with e | Nj <;> simp only [hNj] at hw
    · exact absurd hw (by simp)
    · simp only [Except.ok.injEq] at hw
      rw [← hw, hnet i j]
      simp

theorem getD_zero_of_all (l : List ℚ) (h : ∀ x ∈ l, x = 0) (i : ℕ) :
    l.getD i 0 = 0 := by
  rw [List.getD_eq_getElem?_getD]
  rcases hm : l[i]? with _ | x
  · rfl
  · exact h x (List.getElem?_mem hm)

theorem lookupQ_map_fun (g : String → ℚ) (n : String) (L : List String) :
    lookupQ n (L.map (fun c => (c, g c))) = if n ∈ L then some (g n) else none := by
  induction L with
  | nil => simp [lookupQ]
  | cons c L ih =>
    by_cases hc : c = n
    · subst hc
      simp [lookupQ_cons_self]
    · have hnc : ¬n = c := fun h => hc h.symm
      rw [List.map_cons, lookupQ_cons_ne c n (g c) _ hc, ih]
      simp [List.mem_cons, hnc]

theorem assoc_eq_map_lookupQ (l : List (String × ℚ)) (L : List String)
    (hkeys : l.map Prod.fst = L) (hnd : L.Nodup) :
    l = L.map (fun c => (c, (lookupQ c l).getD 0)) := by
  induction l generalizing L with
  | nil => simp at hkeys; subst hkeys; rfl
  | cons kv l ih =>
    obtain ⟨k, v⟩ := kv
    rcases L with _ | ⟨c, L⟩
    · simp at hkeys
    · simp only [List.map_cons, List.cons.injEq] at hkeys
      obtain ⟨hk, hrest⟩ := hkeys
      subst hk
      have hnd' := (List.nodup_cons.mp hnd).2
      have hknotin : k ∉ L := (List.nodup_cons.mp hnd).1
      rw [List.map_cons]
      refine List.cons_eq_cons.mpr ⟨by simp [lookupQ_cons_self], ?_⟩
      have hstep := ih L hrest hnd'
      have hmapeq : L.map (fun c => (c, (lookupQ c ((k, v) :: l)).getD 0))
          = L.map (fun c => (c, (lookupQ c l).getD 0)) := by
        refine List.map_congr_left ?_
        intro c hc
        have hck : ¬k = c := fun h => hknotin (h ▸ hc)
        rw [lookupQ_cons_ne k c v l hck]
      rw [hmapeq]
      exact hstep

theorem patchExtract_ok_eq (m : CompartmentalModel) (fs : FullState) (i : ℕ)
    (ps : List (String × ℚ)) (h : patchExtract m fs i = .ok ps) :
    ps = projL m fs i ∧ ∀ c ∈ m.compartments, (fs (c, i)).isSome := by
  unfold patchExtract at h
  unfold projL
  generalize hL : m.compartments = L at *
  clear hL
  induction L generalizing ps with
  | nil =>
    simp only [seqMap, Except.ok.injEq] at h
    subst h
    simp
  | cons c L ih =>
    simp only [seqMap] at h
    rcases hc : fs (c, i) with _ | v <;> simp only [hc] at h
    · exact absurd h (by simp)
    · rcases hrest : seqMap (fun c =>
          match fs (c, i) with
          | some v => Except.ok (c, v)
          | none => Except.error (ModelError.stateKeyError c i)) L
        with e | ps' <;> simp only [hrest] at h
      · exact absurd h (by simp)
      · simp only [Except.ok.injEq] at h
        subst h
        obtain ⟨heq, hpres⟩ := ih ps' hrest
        refine ⟨?_, ?_⟩
        · rw [List.map_cons, heq, hc]
          rfl
        · intro c' hc'
          rcases List.mem_cons.mp hc' with hcc | hcc
          · rw [hcc, hc]; rfl
          · exact hpres c' hcc

theorem applyTransition_keys (env : Env) (d0 d1 : List (String × ℚ))
    (tr : Transition) (h : applyTransition env d0 tr = .ok d1) :
    d1.map Prod.fst = d0.map Prod.fst := by
  unfold applyTransition at h
  rcases hr : tr.rate.evalIn env with e | r <;> simp only [hr] at h
  · exact absurd h (by simp)
  · rcases hsrc : tr.src with _ | a <;> simp only [hsrc] at h
    · rcases hdst : tr.dst with _ | b <;> simp only [hdst] at h
      · simp only [Except.ok.injEq] at h
        subst h; rfl
      · rcases hub : updA b (fun v => v + r) d0 with _ | db <;> simp only [hub] at h
        · exact absurd h (by simp)
        · simp only [Except.ok.injEq] at h
          subst h
          exact updA_keys _ _ _ _ hub
    · rcases hua : updA a (fun v => v - r) d0 with _ | da <;> simp only [hua] at h
      · exact absurd h (by simp)
      · rcases hdst : tr.dst with _ | b <;> simp only [hdst] at h
        · simp only [Except.ok.injEq] at h
          subst h
          exact updA_keys _ _ _ _ hua
        · rcases hub : updA b (fun v => v + r) da with _ | db <;> simp only [hub] at h
          · exact absurd h (by simp)
          · simp only [Except.ok.injEq] at h
            subst h
            rw [updA_keys _ _ _ _ hub, updA_keys _ _ _ _ hua]

theorem foldTransitions_keys (env : Env) (ts : List Transition) :
    ∀ d0 d, foldE (applyTransition env) d0 ts = .ok d →
      d.map Prod.fst = d0.map Prod.fst := by
  induction ts with
  | nil =>
    intro d0 d h
    simp only [foldE, Except.ok.injEq] at h
    rw [← h]
  | cons t ts ih =>
    intro d0 d h
    simp only [foldE] at h
    rcases ht : applyTransition env d0 t with e | d1 <;> simp only [ht] at h
    · exact absurd h (by simp)
    · rw [ih d1 d h, applyTransition_keys _ _ _ _ ht]

theorem ctr_keys (m : CompartmentalModel) (state extras : List (String × ℚ))
    (d : List (String × ℚ)) (h : m.compute_transition_rates state extras = .ok d) :
    d.map Prod.fst = m.compartments := by
  unfold CompartmentalModel.compute_transition_rates at h
  rw [foldTransitions_keys _ _ _ _ h, List.map_map]
  exact List.map_id m.compartments

/-- Applying a delta list to the full state at patch `i`'s qualified keys
tracks applying it to the corresponding single-patch association list. -/
theorem applyDeltas_bridge (i : ℕ) (d : List (String × ℚ)) :
    ∀ (ns ns' : FullState) (ps : List (String × ℚ)),
    foldE (fun s cd =>
        match s (cd.1, i) with
        | none => Except.error (ModelError.stateKeyError cd.1 i)
        | some v => Except.ok (updFS (cd.1, i) (v + cd.2) s)) ns d = .ok ns' →
    (∀ cd ∈ d, cd.1 ∈ ps.map Prod.fst) →
    (∀ c ∈ ps.map Prod.fst, lookupQ c ps = ns (c, i)) →
    ∃ ps', foldE (fun s cd =>
        match updA cd.1 (fun v => v + cd.2) s with
        | some s' => Except.ok s'
        | none => Except.error (ModelError.keyError cd.1)) ps d = .ok ps' ∧
      ps'.map Prod.fst = ps.map Prod.fst ∧
      ∀ c ∈ ps.map Prod.fst, lookupQ c ps' = ns' (c, i) := by
  induction d with
  | nil =>
    intro ns ns' ps h hk hrel
    simp only [foldE, Except.ok.injEq] at h
    exact ⟨ps, rfl, rfl, h ▸ hrel⟩
  | cons cd d ih =>
    intro ns ns' ps h hk hrel
    obtain ⟨c0, δ⟩ := cd
    simp only [foldE] at h ⊢
    have hc0 : c0 ∈ ps.map Prod.fst := hk (c0, δ) (List.mem_cons_self _ _)
    rcases hns : ns (c0, i) with _ | v <;> simp only [hns] at h
    · exact absurd h (by simp)
    · have hlook : lookupQ c0 ps = some v := (hrel c0 hc0).trans hns
      rcases hupd : updA c0 (fun v => v + δ) ps with _ | ps1
      · have := (updA_isSome_iff c0 (fun v => v + δ) ps).mpr hc0
        rw [hupd] at this
        simp at this
      · simp only [hupd]
        have hkeys1 : ps1.map Prod.fst = ps.map Prod.fst := updA_keys _ _ _ _ hupd
        have hrel1 : ∀ c ∈ ps1.map Prod.fst,
            lookupQ c ps1 = (updFS (c0, i) (v + δ) ns) (c, i) := by
          intro c hc
          rw [hkeys1] at hc
          by_cases hcc : c0 = c
          · subst hcc
            rw [updA_lookup_self _ _ _ _ hupd, hlook]
            simp [updFS]
          · have hne : (c, i) ≠ (c0, i) := fun hh => hcc (congrArg Prod.fst hh).symm
            rw [updA_lookup_other _ _ _ _ hupd c (fun hh => hcc hh.symm), hrel c hc]
            simp only [updFS, if_neg hne]
        obtain ⟨ps', hfold, hkeys', hrel'⟩ := ih (updFS (c0, i) (v + δ) ns) ns' ps1 h
          (fun cd hcd => hkeys1 ▸ hk cd (List.mem_cons_of_mem _ hcd))
          hrel1
        exact ⟨ps', hfold, hkeys'.trans hkeys1,
          fun c hc => hrel' c (by rw [hkeys1]; exact hc)⟩

/-- The delta-application loop of one patch touches only that patch's
qualified keys. -/
theorem applyDeltasF_local (i : ℕ) (d : List (String × ℚ)) :
    ∀ ns ns' : FullState,
    foldE (fun s cd =>
        match s (cd.1, i) with
        | none => Except.error (ModelError.stateKeyError cd.1 i)
        | some v => Except.ok (updFS (cd.1, i) (v + cd.2) s)) ns d = .ok ns' →
    ∀ k : String × ℕ, k.2 ≠ i → ns' k = ns k := by
  induction d with
  | nil =>
    intro ns ns' h k _
    simp only [foldE, Except.ok.injEq] at h
    rw [← h]
  | cons cd d ih =>
    intro ns ns' h k hki
    obtain ⟨c0, δ⟩ := cd
    simp only [foldE] at h
    rcases hns : ns (c0, i) with _ | v <;> simp only [hns] at h
    · exact absurd h (by simp)
    · have hne : k ≠ (c0, i) := fun hh => hki (congrArg Prod.snd hh)
      rw [ih (updFS (c0, i) (v + δ) ns) ns' h k hki]
      simp only [updFS, if_neg hne]

/-- `patchUpdate` touches only the processed patch's qualified keys. -/
theorem patchUpdate_local (nm : NetworkModel) (fs : FullState) (lambdas : List ℚ)
    (ns ns' : FullState) (i : ℕ) (h : nm.patchUpdate fs lambdas ns i = .ok ns') :
    ∀ k : String × ℕ, k.2 ≠ i → ns' k = ns k := by
  unfold NetworkModel.patchUpdate at h
  rcases hex : patchExtract nm.base_model fs i with e | ps <;> simp only [hex] at h
  · exact absurd h (by simp)
  · rcases hctr : nm.base_model.compute_transition_rates ps
        [("lambda_i", lambdas.getD i 0)] with e | deltas <;> simp only [hctr] at h
    · exact absurd h (by simp)
    · exact applyDeltasF_local i deltas ns ns' h

/-- One patch's update under a zero `lambda_i` tracks the spec-side
single-patch step: the base model's step with `lambda_i = 0` on the patch's
slice, clamped, equals the patch's slice of the clamped updated state. -/
theorem patchUpdate_single (nm : NetworkModel) (fs ns ns' : FullState)
    (lambdas : List ℚ) (i : ℕ)
    (hnd : nm.base_model.compartments.Nodup)
    (hlam : lambdas.getD i 0 = 0)
    (hns : ∀ c, ns (c, i) = fs (c, i))
    (h : nm.patchUpdate fs lambdas ns i = .ok ns') :
    nm.base_model.singleStep (projL nm.base_model fs i)
      = .ok (projL nm.base_model (clampState ns') i) := by
  unfold NetworkModel.patchUpdate at h
  rcases hex : patchExtract nm.base_model fs i with e | ps <;> simp only [hex] at h
  · exact absurd h (by simp)
  rcases hctr : nm.base_model.compute_transition_rates ps
      [("lambda_i", lambdas.getD i 0)] with e | deltas <;> simp only [hctr] at h
  · exact absurd h (by simp)
  obtain ⟨hps, hpres⟩ := patchExtract_ok_eq _ _ _ _ hex
  subst hps
  rw [hlam] at hctr
  have hpskeys : (projL nm.base_model fs i).map Prod.fst
      = nm.base_model.compartments := by
    unfold projL
    rw [List.map_map]
    exact List.map_id _
  have hdkeys : deltas.map Prod.fst = nm.base_model.compartments :=
    ctr_keys _ _ _ _ hctr
  obtain ⟨ps', hfold, hkeys', hrel'⟩ := applyDeltas_bridge i deltas ns ns'
    (projL nm.base_model fs i) h
    (fun cd hcd => by
      rw [hpskeys, ← hdkeys]
      exact List.mem_map_of_mem Prod.fst hcd)
    (by
      intro c hc
      rw [hpskeys] at hc
      obtain ⟨v, hv⟩ := Option.isSome_iff_exists.mp (hpres c hc)
      unfold projL
      rw [lookupQ_map_fun, if_pos hc, hns c, hv]
      rfl)
  unfold CompartmentalModel.singleStep
  simp only [hctr, hfold]
  refine congrArg Except.ok ?_
  have hps' : ps' = nm.base_model.compartments.map
      (fun c => (c, (lookupQ c ps').getD 0)) :=
    assoc_eq_map_lookupQ ps' _ (hkeys'.trans hpskeys) hnd
  rw [hps']
  unfold projL clampState
  rw [List.map_map]
  refine List.map_congr_left ?_
  intro c hc
  obtain ⟨w, hw⟩ : ∃ w, lookupQ c ps' = some w :=
    Option.isSome_iff_exists.mp ((lookupQ_isSome_iff c ps').mpr
      (by rw [hkeys'.trans hpskeys]; exact hc))
  have hl := hrel' c (by rw [hpskeys]; exact hc)
  rw [hl] at hw
  simp only [Function.comp, hw, Option.map_some', Option.getD_some]
  rw [hl, hw]
  rfl

theorem projL_congr (m : CompartmentalModel) (s1 s2 : FullState) (i : ℕ)
    (h : ∀ c, s1 (c, i) = s2 (c, i)) : projL m s1 i = projL m s2 i := by
  unfold projL
  exact List.map_congr_left (fun c _ => by rw [h c])

/-- Folding the per-patch updates over a duplicate-free patch list with zero
`lambda` values performs, on each listed patch, exactly the spec-side
single-patch step, and leaves all other patches untouched. -/
theorem foldPatches_single (nm : NetworkModel) (fs : FullState) (lambdas : List ℚ)
    (hnd : nm.base_model.compartments.Nodup)
    (hlam : ∀ i, lambdas.getD i 0 = 0) :
    ∀ (L : List ℕ) (ns ns' : FullState), L.Nodup →
    foldE (nm.patchUpdate fs lambdas) ns L = .ok ns' →
    (∀ i ∈ L, ∀ c, ns (c, i) = fs (c, i)) →
    (∀ i ∈ L, nm.base_model.singleStep (projL nm.base_model fs i)
        = .ok (projL nm.base_model (clampState ns') i)) ∧
    (∀ k : String × ℕ, k.2 ∉ L → ns' k = ns k) := by
  intro L
  induction L with
  | nil =>
    intro ns ns' _ h _
    simp only [foldE, Except.ok.injEq] at h
    subst h
    exact ⟨by simp, fun k _ => rfl⟩
  | cons j L ih =>
    intro ns ns' hnodup h hns
    simp only [foldE] at h
    rcases hj : nm.patchUpdate fs lambdas ns j with e | ns1 <;> simp only [hj] at h
    · exact absurd h (by simp)
    · have hjL : j ∉ L := (List.nodup_cons.mp hnodup).1
      have hL : L.Nodup := (List.nodup_cons.mp hnodup).2
      have hns1 : ∀ i ∈ L, ∀ c, ns1 (c, i) = fs (c, i) := by
        intro i hi c
        have hij : i ≠ j := fun hh => hjL (hh ▸ hi)
        rw [patchUpdate_local nm fs lambdas ns ns1 j hj (c, i) hij]
        exact hns i (List.mem_cons_of_mem j hi) c
      obtain ⟨hsteps, hlocal⟩ := ih ns1 ns' hL h hns1
      constructor
      · intro i hi
        rcases List.mem_cons.mp hi with hij | hiL
        · subst hij
          have h1 := patchUpdate_single nm fs ns ns1 lambdas i hnd (hlam i)
            (fun c => hns i (List.mem_cons_self i L) c) hj
          have hcl : projL nm.base_model (clampState ns') i
              = projL nm.base_model (clampState ns1) i := by
            refine projL_congr _ _ _ _ ?_
            intro c
            unfold clampState
            rw [hlocal (c, i) (by simpa using hjL)]
          rw [hcl]
          exact h1
        · exact hsteps i hiL
      · intro k hk
        rw [hlocal k (fun hh => hk (List.mem_cons_of_mem j hh))]
        exact patchUpdate_local nm fs lambdas ns ns1 j hj k
          (fun hh => hk (by rw [hh]; exact List.mem_cons_self j L))

/-- One `discreteStep` under an all-zero network performs, per patch, the
spec-side single-patch step with `lambda_i = 0`. -/
theorem discreteStep_single (nm : NetworkModel) (fs fs' : FullState)
    (hnd : nm.base_model.compartments.Nodup)
    (hnet : ∀ a b, nm.network a b = 0)
    (h : nm.discreteStep fs = .ok fs') :
    ∀ i < nm.num_patches,
      nm.base_model.singleStep (projL nm.base_model fs i)
        = .ok (projL nm.base_model fs' i) := by
  unfold NetworkModel.discreteStep NetworkModel.discreteStepCore at h
  rcases hfoi : nm.compute_force_of_infection fs with e | lambdas <;>
    simp only [hfoi] at h
  · exact absurd h (by simp)
  · rcases hfold : foldE (nm.patchUpdate fs lambdas) fs (List.range nm.num_patches)
      with e | ns <;> simp only [hfold] at h
    · exact absurd h (by simp)
    · simp only [Except.ok.injEq] at h
      subst h
      have hlam : ∀ i, lambdas.getD i 0 = 0 :=
        fun i => getD_zero_of_all lambdas (foi_zero nm fs hnet lambdas hfoi) i
      intro i hi
      exact (foldPatches_single nm fs lambdas hnd hlam (List.range nm.num_patches)
        fs ns (List.nodup_range _) hfold (fun _ _ _ => rfl)).1 i
        (List.mem_range.mpr hi)

/-- The discrete stepping loop under an all-zero network tracks, per patch,
the spec-side single-patch stepping loop. -/
theorem simDiscreteAux_single (nm : NetworkModel)
    (hnd : nm.base_model.compartments.Nodup)
    (hnet : ∀ a b, nm.network a b = 0) :
    ∀ (steps : ℕ) (fs : FullState) (sts : List FullState),
    simDiscreteAux nm steps fs = .ok sts → ∀ i < nm.num_patches,
    singleAux nm.base_model steps (projL nm.base_model fs i)
      = .ok (sts.map (fun st => projL nm.base_model st i)) := by
  intro steps
  induction steps with
  | zero =>
    intro fs sts h i _
    simp only [simDiscreteAux, Except.ok.injEq] at h
    subst h
    rfl
  | succ k ih =>
    intro fs sts h i hi
    simp only [simDiscreteAux] at h
    rcases hstep : nm.discreteStep fs with e | fs' <;> simp only [hstep] at h
    · exact absurd h (by simp)
    · rcases haux : simDiscreteAux nm k fs' with e | rest <;> simp only [haux] at h
      · exact absurd h (by simp)
      · simp only [Except.ok.injEq] at h
        subst h
        have h1 := discreteStep_single nm fs fs' hnd hnet hstep i hi
        have h2 := ih fs' rest haux i hi
        simp only [singleAux, h1, h2, List.map_cons]

theorem seqMap_ok_length (f : α → Except ModelError β) (L : List α) (out : List β)
    (h : seqMap f L = .ok out) : out.length = L.length := by
  induction L generalizing out with
  | nil =>
    simp only [seqMap, Except.ok.injEq] at h
    subst h
    rfl
  | cons a L ih =>
    simp only [seqMap] at h
    rcases ha : f a with e | b <;> simp only [ha] at h
    · exact absurd h (by simp)
    · rcases hrest : seqMap f L with e | bs <;> simp only [hrest] at h
      · exact absurd h (by simp)
      · simp only [Except.ok.injEq] at h
        subst h
        simp [ih bs hrest]

theorem seqMap_ok_get (f : α → Except ModelError β) :
    ∀ (L : List α) (out : List β), seqMap f L = .ok out →
    ∀ (p : ℕ) (a : α), L[p]? = some a → ∃ b, out[p]? = some b ∧ f a = .ok b := by
  intro L
  induction L with
  | nil =>
    intro out h p a hp
    simp at hp
  | cons a0 L ih =>
    intro out h p a hp
    simp only [seqMap] at h
    rcases ha : f a0 with e | b0 <;> simp only [ha] at h
    · exact absurd h (by simp)
    · rcases hrest : seqMap f L with e | bs <;> simp only [hrest] at h
      · exact absurd h (by simp)
      · simp only [Except.ok.injEq] at h
        subst h
        cases p with
        | zero =>
          simp only [List.getElem?_cons_zero, Option.some_inj] at hp
          subst hp
          exact ⟨b0, by simp, ha⟩
        | succ p' =>
          simp only [List.getElem?_cons_succ] at hp ⊢
          exact ih bs hrest p' a hp

theorem flatten_slice (K : ℕ) :
    ∀ (segs : List (List ℚ)) (i : ℕ) (seg : List ℚ),
    (∀ s ∈ segs, s.length = K) → segs[i]? = some seg →
    (segs.flatten.drop (i * K)).take K = seg := by
  intro segs
  induction segs with
  | nil =>
    intro i seg _ h
    simp at h
  | cons s segs ih =>
    intro i seg hlen hget
    have hs : s.length = K := hlen s (List.mem_cons_self s segs)
    cases i with
    | zero =>
      simp only [List.getElem?_cons_zero, Option.some_inj] at hget
      subst hget
      simp only [List.flatten_cons, Nat.zero_mul, List.drop_zero]
      rw [← hs]
      exact List.take_left s segs.flatten
    | succ i' =>
      simp only [List.getElem?_cons_succ] at hget
      simp only [List.flatten_cons]
      have harith : (i' + 1) * K = K + i' * K := by ring
      have hdl : (s ++ segs.flatten).drop K = segs.flatten := by
        rw [← hs]
        exact List.drop_left s segs.flatten
      rw [harith, ← List.drop_drop, hdl]
      exact ih i' seg (fun t ht => hlen t (List.mem_cons_of_mem s ht)) hget

/-- The flattened right-hand side with zero `lambda` values decomposes,
patch by patch, into the base model's `ode_rhs` with `lambda_i = 0`. -/
theorem odeRhsCore_single (nm : NetworkModel) (st : FullState) (lambdas : List ℚ)
    (dydt : List ℚ) (hlam : ∀ i, lambdas.getD i 0 = 0)
    (h : nm.odeRhsCore st lambdas = .ok dydt) :
    ∀ i < nm.num_patches,
      nm.base_model.ode_rhs
          ((projL nm.base_model st i).map Prod.snd) [("lambda_i", 0)]
        = .ok (patchSlice nm.base_model dydt i) := by
  unfold NetworkModel.odeRhsCore at h
  rcases hseq : seqMap (fun i =>
      match patchExtract nm.base_model st i with
      | Except.error e => Except.error e
      | Except.ok ps =>
        match nm.base_model.compute_transition_rates ps
            [("lambda_i", lambdas.getD i 0)] with
        | Except.error e => Except.error e
        | Except.ok deltas =>
          seqMap (fun c =>
            match lookupQ c deltas with
            | some d => Except.ok d
            | none => Except.error (ModelError.keyError c))
            nm.base_model.compartments)
      (List.range nm.num_patches) with e | segs <;> simp only [hseq] at h
  · exact absurd h (by simp)
  · simp only [Except.ok.injEq] at h
    subst h
    intro i hi
    obtain ⟨seg, hsegp, hfa⟩ := seqMap_ok_get _ _ _ hseq i i (List.getElem?_range hi)
    have hlens : ∀ s ∈ segs, s.length = nm.base_model.compartments.length := by
      intro s hsmem
      obtain ⟨a, _, hfa'⟩ := seqMap_ok_mem _ _ _ hseq s hsmem
      rcases hex : patchExtract nm.base_model st a with e | ps <;>
        simp only [hex] at hfa'
      · exact absurd hfa' (by simp)
      · rcases hctr : nm.base_model.compute_transition_rates ps
            [("lambda_i", lambdas.getD a 0)] with e | deltas <;>
          simp only [hctr] at hfa'
        · exact absurd hfa' (by simp)
        · exact seqMap_ok_length _ _ _ hfa'
    rcases hex : patchExtract nm.base_model st i with e | ps <;>
      simp only [hex] at hfa
    · exact absurd hfa (by simp)
    · rcases hctr : nm.base_model.compute_transition_rates ps
          [("lambda_i", lambdas.getD i 0)] with e | deltas <;>
        simp only [hctr] at hfa
      · exact absurd hfa (by simp)
      · obtain ⟨hps, _⟩ := patchExtract_ok_eq _ _ _ _ hex
        subst hps
        rw [hlam i] at hctr
        unfold CompartmentalModel.ode_rhs
        have hzip : nm.base_model.compartments.zip
            ((projL nm.base_model st i).map Prod.snd) = projL nm.base_model st i := by
          unfold projL
          rw [List.map_map]
          exact (List.map_prod_left_eq_zip _).symm
        rw [hzip]
        simp only [hctr, hfa]
        exact congrArg Except.ok (flatten_slice _ segs i seg hlens hsegp).symm

/-- `odeRhs` under an all-zero network decomposes per patch into the base
model's `ode_rhs` with `lambda_i = 0` on the patch's slice. -/
theorem odeRhs_single (nm : NetworkModel) (y dydt : List ℚ)
    (hnet : ∀ a b, nm.network a b = 0)
    (h : nm.odeRhs y = .ok dydt) :
    ∀ i < nm.num_patches,
      nm.base_model.ode_rhs
          ((projL nm.base_model (nm.stateOfVec y) i).map Prod.snd) [("lambda_i", 0)]
        = .ok (patchSlice nm.base_model dydt i) := by
  unfold NetworkModel.odeRhs at h
  rcases hfoi : nm.compute_force_of_infection (nm.stateOfVec y) with e | lambdas <;>
    simp only [hfoi] at h
  · exact absurd h (by simp)
  · exact odeRhsCore_single nm (nm.stateOfVec y) lambdas dydt
      (fun i => getD_zero_of_all lambdas (foi_zero nm _ hnet lambdas hfoi) i) h

/-- C7: zero-coupling degeneracy — with an all-zero network matrix, the
trajectory `simulate_discrete` produces projects, patch by patch, onto an
independent single-patch run of the base model under the same stepping with
`lambda_i` fixed at 0 (`singleRun`, modelled from the spec); and every
right-hand-side evaluation of `simulate_ode` decomposes, patch by patch,
into the base model's `ode_rhs` with `lambda_i = 0` on that patch's slice. -/
theorem claim_C7 (nm : NetworkModel) (y0 : FullState) (steps i : ℕ)
    (hnd : nm.base_model.compartments.Nodup)
    (hnet : ∀ a b, nm.network a b = 0)
    (hi : i < nm.num_patches) :
    ((nm.simulate_discrete y0 steps).toOption.isSome = true →
      nm.base_model.singleRun (projL nm.base_model y0 i) steps
        = .ok (((nm.simulate_discrete y0 steps).toOption.getD []).map
            (fun st => projL nm.base_model st i))) ∧
    (∀ y dydt, nm.odeRhs y = .ok dydt →
      nm.base_model.ode_rhs
          ((projL nm.base_model (nm.stateOfVec y) i).map Prod.snd) [("lambda_i", 0)]
        = .ok (patchSlice nm.base_model dydt i)) := by
  constructor
  · intro hok
    rcases hrun : nm.simulate_discrete y0 steps with e | hist
    · simp [Except.toOption, hrun] at hok
    · have hinv : ∃ sts, simDiscreteAux nm steps y0 = .ok sts ∧ hist = y0 :: sts := by
        unfold NetworkModel.simulate_discrete at hrun
        rcases hchk : seqMap (fun k =>
            match y0 k with
            | some v => Except.ok v
            | none => Except.error (ModelError.stateKeyError k.1 k.2))
            nm.allCompartments with e | vals <;> simp only [hchk] at hrun
        · exact absurd hrun (by simp)
        · rcases haux : simDiscreteAux nm steps y0 with e | sts <;>
            simp only [haux] at hrun
          · exact absurd hrun (by simp)
          · simp only [Except.ok.injEq] at hrun
            exact ⟨sts, rfl, hrun.symm⟩
      obtain ⟨sts, haux, rfl⟩ := hinv
      have h1 := simDiscreteAux_single nm hnd hnet steps y0 sts haux i hi
      unfold CompartmentalModel.singleRun
      simp only [h1]
      simp [Except.toOption]
  · intro y dydt hy
    exact odeRhs_single nm y dydt hnet hy i hi

/-- C7 witness: the SIR model on two patches with the all-zero coupling
matrix: the discrete run projects onto the single-patch run, and the ode
right-hand side at the scenario state decomposes into the single-patch
right-hand side. -/
theorem claim_C7_witness :
    (zeroCoupNet.simulate_discrete sirY0 1).toOption.isSome = true ∧
    sirBase.singleRun (projL sirBase sirY0 0) 1
      = .ok (((zeroCoupNet.simulate_discrete sirY0 1).toOption.getD []).map
          (fun st => projL sirBase st 0)) ∧
    zeroCoupNet.odeRhs [99, 1, 0, 99, 1, 0]
      = .ok [0, -(1 / 10 : ℚ), 1 / 10, 0, -(1 / 10), 1 / 10] ∧
    sirBase.ode_rhs
        ((projL sirBase (zeroCoupNet.stateOfVec [99, 1, 0, 99, 1, 0]) 0).map Prod.snd)
        [("lambda_i", 0)]
      = .ok (patchSlice sirBase [0, -(1 / 10 : ℚ), 1 / 10, 0, -(1 / 10), 1 / 10] 0) := by
  have hiso : (zeroCoupNet.simulate_discrete sirY0 1).toOption.isSome = true := by
    norm_num +decide [NetworkModel.simulate_discrete, seqMap, NetworkModel.allCompartments,
      simDiscreteAux, NetworkModel.discreteStep, NetworkModel.compute_force_of_infection,
      foldE, NetworkModel.discreteStepCore, NetworkModel.patchUpdate, patchExtract,
      CompartmentalModel.compute_transition_rates, applyTransition, Expr.evalIn, buildEnv,
      lookupQ, updA, updFS, clampState, zeroCoupNet, sirBase, sirY0,
      List.range_succ, List.range_zero, Except.toOption]
  have hode : zeroCoupNet.odeRhs [99, 1, 0, 99, 1, 0]
      = .ok [0, -(1 / 10 : ℚ), 1 / 10, 0, -(1 / 10), 1 / 10] := by
    norm_num +decide [NetworkModel.odeRhs, NetworkModel.odeRhsCore, seqMap, foldE,
      NetworkModel.compute_force_of_infection, patchExtract, NetworkModel.stateOfVec,
      lookupP, NetworkModel.allCompartments,
      CompartmentalModel.compute_transition_rates, applyTransition, Expr.evalIn, buildEnv,
      lookupQ, updA, zeroCoupNet, sirBase,
      List.range_succ, List.range_zero, List.zip_cons_cons, List.zip_nil_left,
      List.zip_nil_right, Except.toOption]
  exact ⟨hiso,
    (claim_C7 zeroCoupNet sirY0 1 0 (by decide) (fun _ _ => rfl) (by decide)).1 hiso,
    hode,
    (claim_C7 zeroCoupNet sirY0 1 0 (by decide) (fun _ _ => rfl) (by decide)).2
      [99, 1, 0, 99, 1, 0] _ hode⟩
